import Mathlib

/-!
Verification of the Crest View lunch-menu scraper core.

This file gives a shallow embedding, in Lean 4, of the data model and the
algorithms of the repository:

* `src/models.ts` — the menu hierarchy (`MenuItem`, `DailyMenu`, `WeeklyMenu`,
  `MonthlyMenu`), its constructors with the vegan/vegetarian name inference,
  JSON (de)serialization, and the temporal query `getWeeklyMenuForDate`;
* the two revisions of the streaming scraper (referred to here as `P0`, the
  revision with inline handler state, and `P1`, the revision with the
  `ScraperState` class): the title normalizer `parseMenuItemText`, the
  administrative-announcement filter, the color-to-category map, the
  tag-open-event state machines, and `groupDailyMenusByWeek`.

Calendar dates. The code stores JS `Date` values at a fixed noon time and
compares them either via `getTime()` or via their zero-padded `yyyy-MM-dd`
rendering; at day precision both orders coincide with chronological order.
We therefore embed a calendar date as its rata-die day index (`Nat`, with day
1 = 0001-01-01 of the proleptic Gregorian calendar, a Monday).  JS
`Date.getDay()` (0 = Sunday … 6 = Saturday) is then the index mod 7, and the
`yyyy-MM-dd` serialization of a date is modelled by the day index itself,
since at day precision `format`/`parseISO` are mutually inverse.
-/

/-! ### Calendar dates as rata-die day indices -/

/-- Gregorian leap-year test. -/
def isLeapYear (y : Nat) : Bool :=
  (y % 4 == 0 && y % 100 != 0) || y % 400 == 0

/-- Days in the months before 1-based month `m` in a common year. -/
def daysBeforeMonth (m : Nat) : Nat :=
  [0, 0, 31, 59, 90, 120, 151, 181, 212, 243, 273, 304, 334].getD m 334

/-- Rata-die index of the civil date `y-m-d` (1-based month and day):
day 1 is 0001-01-01, a Monday, in the proleptic Gregorian calendar. -/
def rataDie (y m d : Nat) : Nat :=
  365 * (y - 1) + (y - 1) / 4 - (y - 1) / 100 + (y - 1) / 400
    + daysBeforeMonth m + (if m > 2 && isLeapYear y then 1 else 0) + d

/-- JS `Date.prototype.getDay`: 0 = Sunday, 1 = Monday, …, 6 = Saturday.
Rata-die day 1 is a Monday, so this is the index mod 7. -/
def jsGetDay (n : Nat) : Nat := n % 7

/-- `date-fns` `startOfWeek(date, { weekStartsOn: 1 })`: the Monday on or
before the date, obtained by stepping back `(getDay + 6) % 7` days. -/
def mondayOf (n : Nat) : Nat := n - (n + 6) % 7

/-- The normalization of the JS `Date(year, monthIndex, day)` constructor:
a two-digit `year` (0–99) is interpreted as `1900 + year` (ECMAScript
`MakeDay`), then `monthIndex` may exceed 11 (rolling into later years) and
`day` may exceed the month length (rolling into later months). The scraper
only reaches this constructor with `year ≥ 1`, `monthIndex ≥ 0`, `day ≥ 1`. -/
def mkJsDate (year monthIndex day : Nat) : Nat :=
  let yr := if year ≤ 99 then 1900 + year else year
  let total := 12 * yr + monthIndex
  rataDie (total / 12) (total % 12 + 1) 1 + (day - 1)

/-! ### String utilities shared by the scraper

JS `String.prototype.includes`, `replace(/…/g, …)` on literal patterns,
`trim`, `toLowerCase` and `toUpperCase`, modelled on character lists.  The
scraper's inputs and patterns are ASCII, for which Lean's `Char.isWhitespace`,
`Char.toLower`, `Char.toUpper` agree with JS. -/

/-- Whether `pat` occurs as a contiguous substring of `l`
(JS `String.prototype.includes`). -/
def subOccurs (pat : List Char) : List Char → Bool
  | [] => pat.isEmpty
  | c :: rest => pat.isPrefixOf (c :: rest) || subOccurs pat rest

/-- JS `haystack.includes(needle)` on strings. -/
def strIncludes (haystack needle : String) : Bool :=
  subOccurs needle.data haystack.data

/-- Worker for `replaceSub`, structurally recursive on a fuel counter that is
initialized to the input length and always bounds it (a match consumes
`pat.length ≥ 1` characters, a non-match consumes one). -/
def replaceSubGo (pat repl : List Char) : Nat → List Char → List Char
  | _, [] => []
  | 0, _ :: _ => []
  | fuel + 1, c :: rest =>
    if pat.isPrefixOf (c :: rest) ∧ pat ≠ [] then
      repl ++ replaceSubGo pat repl fuel (rest.drop (pat.length - 1))
    else
      c :: replaceSubGo pat repl fuel rest

/-- Replace every (non-overlapping, leftmost-first) occurrence of the
non-empty literal `pat` by `repl` (JS `replace(/pat/g, repl)`). -/
def replaceSub (pat repl l : List Char) : List Char :=
  replaceSubGo pat repl l.length l

/-- String wrapper for `replaceSub`. -/
def strReplace (s pat repl : String) : String :=
  ⟨replaceSub pat.data repl.data s.data⟩

/-- JS `toLowerCase` (ASCII). -/
def strLower (s : String) : String := ⟨s.data.map Char.toLower⟩

/-- JS `toUpperCase` (ASCII). -/
def strUpper (s : String) : String := ⟨s.data.map Char.toUpper⟩

/-- JS `trim`: strip leading and trailing whitespace. -/
def strTrim (s : String) : String :=
  ⟨(s.data.dropWhile Char.isWhitespace).reverse.dropWhile Char.isWhitespace |>.reverse⟩

/-! ### The data model (`src/models.ts`) -/

inductive MealType where
  | breakfast
  | lunch
  | snack
deriving DecidableEq, Repr

inductive FoodCategory where
  | mainEntree
  | vegetarianEntree
  | elementarySecondarySecondChoice
  | elementarySecondarySideDish
  | afterschoolSnack
  | preschoolSnack
  | sacSnack
  | other
deriving DecidableEq, Repr

/-- `MenuItemData`: the constructor input of `MenuItem`; optional fields are
`undefined` when absent.  This same shape is the plain-JSON form consumed by
`MenuItem.fromJSON`. -/
structure MenuItemData where
  name : String
  description : Option String := none
  category : Option FoodCategory := none
  isVegetarian : Option Bool := none
  isVegan : Option Bool := none
  allergens : Option (List String) := none
  nutritionalInfo : Option (List (String × String)) := none
deriving DecidableEq, Repr

/-- The `MenuItem` class: all fields read-only after construction. -/
structure MenuItem where
  name : String
  description : Option String
  category : FoodCategory
  isVegetarian : Bool
  isVegan : Bool
  allergens : List String
  nutritionalInfo : List (String × String)
deriving DecidableEq, Repr

def veganTerms : List String := ["vegan", "plant forward", "plant-based"]

def vegetarianTerms : List String := ["vegetarian", "veggie", "tofu", "bean", "lentil"]

/-- The `MenuItem` constructor, including the post-initialization
vegan/vegetarian inference from the lower-cased name. -/
def MenuItem.build (data : MenuItemData) : MenuItem :=
  let nameLower := strLower data.name
  let isVegan := data.isVegan.getD (veganTerms.any fun term => strIncludes nameLower term)
  let isVegetarian := data.isVegetarian.getD
    (isVegan || vegetarianTerms.any fun term => strIncludes nameLower term)
  { name := data.name
    description := data.description
    category := data.category.getD .other
    isVegetarian := isVegetarian
    isVegan := isVegan
    allergens := data.allergens.getD []
    nutritionalInfo := data.nutritionalInfo.getD [] }

/-- `MenuItem.toJSON`: every field is emitted explicitly. -/
def MenuItem.toJSON (item : MenuItem) : MenuItemData :=
  { name := item.name
    description := item.description
    category := some item.category
    isVegetarian := some item.isVegetarian
    isVegan := some item.isVegan
    allergens := some item.allergens
    nutritionalInfo := some item.nutritionalInfo }

/-- `MenuItem.fromJSON` feeds the plain data back through the constructor. -/
def MenuItem.fromJSON (data : MenuItemData) : MenuItem :=
  MenuItem.build data

/-- `DailyMenuData` / the plain-JSON form of a `DailyMenu`.  The `date` field
is a `yyyy-MM-dd` string in the source, modelled by the day index (see the
header note). -/
structure DailyMenuData where
  date : Nat
  mealType : MealType
  menuItems : Option (List MenuItemData) := none
  specialNotes : Option (List String) := none
  isSchoolDay : Option Bool := none
deriving DecidableEq, Repr

/-- The `DailyMenu` class. -/
structure DailyMenu where
  date : Nat
  mealType : MealType
  menuItems : List MenuItem
  specialNotes : List String
  isSchoolDay : Bool
deriving DecidableEq, Repr

/-- The `DailyMenu` constructor (`parseISO(data.date + "T12:00:00")` recovers
the serialized day). -/
def DailyMenu.build (date : Nat) (mealType : MealType) (menuItems : Option (List MenuItem))
    (specialNotes : Option (List String)) (isSchoolDay : Option Bool) : DailyMenu :=
  { date := date
    mealType := mealType
    menuItems := menuItems.getD []
    specialNotes := specialNotes.getD []
    isSchoolDay := isSchoolDay.getD true }

def DailyMenu.toJSON (menu : DailyMenu) : DailyMenuData :=
  { date := menu.date
    mealType := menu.mealType
    menuItems := some (menu.menuItems.map MenuItem.toJSON)
    specialNotes := some menu.specialNotes
    isSchoolDay := some menu.isSchoolDay }

def DailyMenu.fromJSON (data : DailyMenuData) : DailyMenu :=
  DailyMenu.build data.date data.mealType
    ((data.menuItems.getD []).map MenuItem.fromJSON |> some)
    data.specialNotes data.isSchoolDay

/-- The plain-JSON form of a `WeeklyMenu` (start/end dates are `yyyy-MM-dd`
strings in the source, modelled by day indices). -/
structure WeeklyMenuData where
  startDate : Nat
  endDate : Nat
  dailyMenus : Option (List DailyMenuData) := none
deriving DecidableEq, Repr

/-- The `WeeklyMenu` class. -/
structure WeeklyMenu where
  startDate : Nat
  endDate : Nat
  dailyMenus : List DailyMenu
deriving DecidableEq, Repr

def WeeklyMenu.toJSON (menu : WeeklyMenu) : WeeklyMenuData :=
  { startDate := menu.startDate
    endDate := menu.endDate
    dailyMenus := some (menu.dailyMenus.map DailyMenu.toJSON) }

def WeeklyMenu.fromJSON (data : WeeklyMenuData) : WeeklyMenu :=
  { startDate := data.startDate
    endDate := data.endDate
    dailyMenus := (data.dailyMenus.getD []).map DailyMenu.fromJSON }

/-- The plain-JSON form of a `MonthlyMenu`. -/
structure MonthlyMenuData where
  year : Nat
  month : Nat
  weeklyMenus : Option (List WeeklyMenuData) := none
deriving DecidableEq, Repr

/-- The `MonthlyMenu` class. -/
structure MonthlyMenu where
  year : Nat
  month : Nat
  weeklyMenus : List WeeklyMenu
deriving DecidableEq, Repr

def MonthlyMenu.toJSON (menu : MonthlyMenu) : MonthlyMenuData :=
  { year := menu.year
    month := menu.month
    weeklyMenus := some (menu.weeklyMenus.map WeeklyMenu.toJSON) }

def MonthlyMenu.fromJSON (data : MonthlyMenuData) : MonthlyMenu :=
  { year := data.year
    month := data.month
    weeklyMenus := (data.weeklyMenus.getD []).map WeeklyMenu.fromJSON }

/-- `MonthlyMenu.getWeeklyMenuForDate`: weekday dates search for a containing
week; weekend dates search for the first week starting on or after the
upcoming Monday.  The source compares `yyyy-MM-dd` strings, which at day
precision is chronological comparison of the day indices. -/
def MonthlyMenu.getWeeklyMenuForDate (menu : MonthlyMenu) (targetDate : Nat) :
    Option WeeklyMenu :=
  let dayOfWeek := jsGetDay targetDate
  if dayOfWeek == 0 || dayOfWeek == 6 then
    let daysUntilMonday := if dayOfWeek == 0 then 1 else 2
    let nextMonday := targetDate + daysUntilMonday
    menu.weeklyMenus.find? fun w => decide (w.startDate ≥ nextMonday)
  else
    menu.weeklyMenus.find? fun w =>
      decide (w.startDate ≤ targetDate) && decide (w.endDate ≥ targetDate)

/-! ### Title normalizer and administrative filter (scraper, both revisions) -/

/-- The apostrophe character (code point 39). -/
def aposChar : Char := Char.ofNat 39

/-- The one-character apostrophe string. -/
def aposStr : String := ⟨[aposChar]⟩

/-- The literal apostrophe HTML entity `&#39;` — ampersand, hash, the digits
`39`, and a terminating semicolon (the pattern of the handlers' global
entity replacement). -/
def aposEntity : String := "&#39;"

/-- HTML-entity decoding performed by the `fsCalendarEventTitle` handlers:
`&amp;` to ampersand, `&#39;` to apostrophe, `&quot;` to double quote. -/
def decodeTitle (title : String) : String :=
  strReplace (strReplace (strReplace title "&amp;" "&") aposEntity aposStr) "&quot;" "\""

/-- Whether the head of the list is a whitespace character. -/
def headIsWs (l : List Char) : Bool :=
  match l with
  | c :: _ => c.isWhitespace
  | [] => false

/-- Whether the regex `\s+with\s+` matches at the head of the list: one or
more whitespace characters, the literal `with`, one or more whitespace
characters.  (`with` starts with a non-whitespace character, so the greedy
`\s+` consumes exactly the maximal whitespace run and never backtracks;
the match therefore requires `with` right after that run, followed by at
least one more whitespace character.) -/
def sepMatchAt (l : List Char) : Bool :=
  match l with
  | c :: rest =>
    let after := rest.dropWhile Char.isWhitespace
    c.isWhitespace && ("with".data.isPrefixOf after && headIsWs (after.drop 4))
  | [] => false

/-- The characters strictly before the leftmost `\s+with\s+` match, or `none`
when the pattern does not occur (so that JS `split(/\s+with\s+/)` yields a
single part). -/
def splitAtSep : List Char → Option (List Char)
  | [] => none
  | c :: rest =>
    if sepMatchAt (c :: rest) then some []
    else
      match splitAtSep rest with
      | some pre => some (c :: pre)
      | none => none

/-- `parseMenuItemText` (identical in both scraper revisions): re-decode
`&amp;`/`&#39;`, split on `\s+with\s+`; on a split the name is the trimmed
text before the first separator and the description is the entire cleaned
text; otherwise both are the cleaned text. -/
def parseMenuItemText (text : String) : String × String :=
  let cleanText := strReplace (strReplace text "&amp;" "&") aposEntity aposStr
  match splitAtSep cleanText.data with
  | some pre => (strTrim ⟨pre⟩, cleanText)
  | none => (cleanText, cleanText)

/-- The administrative substrings filtered by the `ScraperState` revision
(`P1`): six terms. -/
def adminTermsP1 : List String :=
  ["no school", "winter break", "last day of school", "memorial day", "teacher",
   "spring break"]

/-- The administrative substrings filtered by the inline-state revision
(`P0`): the six terms of `P1` plus `quarter ends`. -/
def adminTermsP0 : List String := adminTermsP1 ++ ["quarter ends"]

/-- Case-insensitive administrative-announcement detection. -/
def isAdminTitle (terms : List String) (title : String) : Bool :=
  let lowerTitle := strLower title
  terms.any fun term => strIncludes lowerTitle term

/-! ### Color-to-category map (scraper, both revisions) -/

def colorMappings : List (String × FoodCategory) :=
  [("#220AFD", .mainEntree),
   ("#52B73E", .vegetarianEntree),
   ("#000000", .elementarySecondarySecondChoice),
   ("#EFE013", .elementarySecondarySideDish),
   ("#BC0945", .mainEntree),
   ("#F90303", .afterschoolSnack),
   ("#651594", .preschoolSnack),
   ("#247632", .sacSnack)]

/-- `COLOR_MAPPINGS[color] || FoodCategory.OTHER`. -/
def colorCategory (color : String) : FoodCategory :=
  (colorMappings.lookup color).getD .other

/-- The capture of the regex `background:\s*([^;]+)` against a style string,
trimmed and upper-cased, scanning for the leftmost matching occurrence of the
literal `background:`; the capture (after trimming) is the segment up to the
next `;`.  `none` when the regex does not match (then the handlers leave the
category untouched). -/
def parseStyleColor : List Char → Option String
  | [] => none
  | c :: rest =>
    if "background:".data.isPrefixOf (c :: rest) then
      let seg := ((c :: rest).drop 11).takeWhile fun ch => ch != ';'
      if seg.isEmpty then parseStyleColor rest
      else some (strUpper (strTrim ⟨seg⟩))
    else parseStyleColor rest

/-! ### Tag-open events

`HTMLRewriter` delivers element-open events in document order; the five
selectors of the scraper are modelled as five event constructors carrying the
attribute data each handler reads.  The `data-day`/`data-month`/`data-year`
attributes are read through `parseInt(attr || "0", 10)`: a missing attribute
parses as `0`, and an unparsable one yields `NaN`, which fails both the
`> 0` and the `≥ 0` comparisons exactly as any negative value does, so the
already-parsed values are carried as integers. -/

inductive TagEvent where
  | daybox (classNames : String)
  | dateInfo (day month year : Int)
  | itemInfo
  | colorIcon (style : String)
  | eventTitle (title : String)
deriving DecidableEq, Repr

def isWeekendBox (classNames : String) : Bool :=
  strIncludes classNames "fsCalendarWeekendDayBox"

def hasEventsBox (classNames : String) : Bool :=
  strIncludes classNames "fsStateHasEvents"

/-- The in-progress menu-item accumulator (`MenuItemData` literal with
`name`, `description`, `category`, `allergens`, `nutritionalInfo` fields,
initialized empty with category `OTHER`). -/
structure ItemAcc where
  name : String
  description : String
  category : FoodCategory
  allergens : List String
  nutritionalInfo : List (String × String)
deriving DecidableEq, Repr

def ItemAcc.init : ItemAcc :=
  { name := "", description := "", category := .other, allergens := [], nutritionalInfo := [] }

/-- The `MenuItemData` passed to `new MenuItem(itemData)` when a day box is
converted (the vegan/vegetarian flags are never set by the parser). -/
def ItemAcc.toData (it : ItemAcc) : MenuItemData :=
  { name := it.name
    description := some it.description
    category := some it.category
    allergens := some it.allergens
    nutritionalInfo := some it.nutritionalInfo }

/-! ### Revision `P0`: the inline-state parser (`part_000`) -/

structure DayBox0 where
  date : Option Nat
  menuItems : List ItemAcc
deriving DecidableEq, Repr

structure State0 where
  dayBoxes : List DayBox0
  currentDayBox : Option DayBox0
  currentMenuItem : Option ItemAcc
deriving DecidableEq, Repr

def State0.init : State0 := ⟨[], none, none⟩

/-- Completing the previous day box (performed at the start of the
`fsCalendarDaybox` handler and once more after the stream ends): append the
pending named menu item, then save the box when it has a date and at least
one item. -/
def completeDay0 (s : State0) : List DayBox0 :=
  match s.currentDayBox with
  | none => s.dayBoxes
  | some box =>
    let box :=
      match s.currentMenuItem with
      | some it => if it.name ≠ "" then { box with menuItems := box.menuItems ++ [it] } else box
      | none => box
    if box.date.isSome ∧ box.menuItems ≠ [] then s.dayBoxes ++ [box] else s.dayBoxes

def step0 (s : State0) : TagEvent → State0
  | .daybox classNames =>
    let dayBoxes := completeDay0 s
    if isWeekendBox classNames then ⟨dayBoxes, none, none⟩
    else if hasEventsBox classNames then ⟨dayBoxes, some ⟨none, []⟩, none⟩
    else ⟨dayBoxes, none, none⟩
  | .dateInfo day month year =>
    let adjustedMonth : Int := if month ≥ 0 then month + 1 else 0
    if day > 0 ∧ adjustedMonth > 0 ∧ year > 0 then
      match s.currentDayBox with
      | some box =>
        let newBox := { box with date := some (mkJsDate year.toNat (adjustedMonth - 1).toNat day.toNat) }
        { s with currentDayBox := some newBox }
      | none => s
    else s
  | .itemInfo =>
    let s :=
      match s.currentMenuItem, s.currentDayBox with
      | some it, some box =>
        if it.name ≠ "" then
          { s with currentDayBox := some { box with menuItems := box.menuItems ++ [it] } }
        else s
      | _, _ => s
    match s.currentDayBox with
    | some _ => { s with currentMenuItem := some ItemAcc.init }
    | none => s
  | .colorIcon style =>
    match s.currentMenuItem with
    | some it =>
      match parseStyleColor style.data with
      | some color => { s with currentMenuItem := some { it with category := colorCategory color } }
      | none => s
    | none => s
  | .eventTitle titleAttr =>
    match s.currentMenuItem with
    | some it =>
      let title := strTrim titleAttr
      if title ≠ "" then
        let decoded := decodeTitle title
        if isAdminTitle adminTermsP0 decoded then s
        else
          let nd := parseMenuItemText decoded
          { s with currentMenuItem := some { it with name := nd.1, description := nd.2 } }
      else s
    | none => s

/-- `P0`'s `parseCalendarFragment`: fold the handlers over the event stream,
complete the final day box, and convert the accumulated day boxes to
`DailyMenu` records. -/
def parseCalendarFragment0 (events : List TagEvent) (mealType : MealType) : List DailyMenu :=
  let s := events.foldl step0 State0.init
  let dayBoxes := completeDay0 s
  (dayBoxes.filter fun box => box.date.isSome && !box.menuItems.isEmpty).map fun box =>
    { date := box.date.getD 0
      mealType := mealType
      menuItems := box.menuItems.map fun it => MenuItem.build it.toData
      specialNotes := []
      isSchoolDay := true }

/-! ### Revision `P1`: the `ScraperState` parser (`part_001`) -/

structure DayBox1 where
  date : Option Nat
  mealType : MealType
  menuItems : List ItemAcc
deriving DecidableEq, Repr

structure State1 where
  currentDayBox : Option DayBox1
  currentMenuItem : Option ItemAcc
  completedDays : List DailyMenu
deriving DecidableEq, Repr

def State1.init : State1 := ⟨none, none, []⟩

/-- `ScraperState.completePreviousDayBox`: when the current day box has a
date and at least one item, convert it to a `DailyMenu` and append it. -/
def completeDayBox1 (s : State1) : List DailyMenu :=
  match s.currentDayBox with
  | some box =>
    if box.date.isSome ∧ box.menuItems ≠ [] then
      s.completedDays ++
        [{ date := box.date.getD 0
           mealType := box.mealType
           menuItems := box.menuItems.map fun it => MenuItem.build it.toData
           specialNotes := []
           isSchoolDay := true }]
    else s.completedDays
  | none => s.completedDays

/-- `ScraperState.completePreviousMenuItem`: push the pending named item into
the current day box, substituting the name for an empty description. -/
def pushItem1 (s : State1) : State1 :=
  match s.currentMenuItem, s.currentDayBox with
  | some it, some box =>
    if it.name ≠ "" then
      { s with currentDayBox := some { box with menuItems := box.menuItems ++
          [{ it with description := if it.description = "" then it.name else it.description }] } }
    else s
  | _, _ => s

def step1 (mealType : MealType) (s : State1) : TagEvent → State1
  | .daybox classNames =>
    if isWeekendBox classNames then s
    else
      { s with completedDays := completeDayBox1 s
               currentDayBox := some { date := none, mealType := mealType, menuItems := [] } }
  | .dateInfo day month year =>
    let adjustedMonth : Int := if month ≥ 0 then month + 1 else 0
    if day > 0 ∧ adjustedMonth > 0 ∧ year > 0 then
      match s.currentDayBox with
      | some box =>
        let newBox := { box with date := some (mkJsDate year.toNat (adjustedMonth - 1).toNat day.toNat) }
        { s with currentDayBox := some newBox }
      | none => s
    else s
  | .itemInfo =>
    let s := pushItem1 s
    { s with currentMenuItem := some ItemAcc.init }
  | .colorIcon style =>
    match parseStyleColor style.data with
    | some color =>
      match s.currentMenuItem with
      | some it => { s with currentMenuItem := some { it with category := colorCategory color } }
      | none => s
    | none => s
  | .eventTitle titleAttr =>
    let title := strTrim titleAttr
    if title ≠ "" then
      let decoded := decodeTitle title
      match s.currentMenuItem with
      | some it =>
        if isAdminTitle adminTermsP1 decoded then { s with currentMenuItem := none }
        else
          let nd := parseMenuItemText decoded
          { s with currentMenuItem := some { it with name := nd.1, description := nd.2 } }
      | none => s
    else s

/-- `P1`'s `parseCalendarFragment`: fold the handlers, then `endMenuItem`
and `endDayBox`, and return the completed days. -/
def parseCalendarFragment1 (events : List TagEvent) (mealType : MealType) : List DailyMenu :=
  let s := events.foldl (step1 mealType) State1.init
  let s := { pushItem1 s with currentMenuItem := none }
  completeDayBox1 s

/-! ### Week bucketer (`groupDailyMenusByWeek`, identical in both revisions) -/

/-- The sort relation of the comparator `(a, b) => a.date - b.date`. -/
def menuDateLe (a b : DailyMenu) : Prop := a.date ≤ b.date

instance : DecidableRel menuDateLe := fun a b => Nat.decLe a.date b.date

instance : IsTotal DailyMenu menuDateLe := ⟨fun a b => Nat.le_total a.date b.date⟩

instance : IsTrans DailyMenu menuDateLe := ⟨fun _ _ _ => Nat.le_trans⟩

/-- The JS stable sort by ascending date, modelled by (stable) insertion
sort. -/
def sortMenus (l : List DailyMenu) : List DailyMenu := l.insertionSort menuDateLe

/-- `date-fns` `isSameWeek(a, b, { weekStartsOn: 1 })`. -/
def isSameWeekM (a b : Nat) : Bool := mondayOf a == mondayOf b

/-- `date-fns` `endOfWeek(n, { weekStartsOn: 1 })` at day precision. -/
def endOfWeekM (n : Nat) : Nat := mondayOf n + 6

/-- Closing the running bucket (the push inside the loop and the final
flush): guarded by a non-empty bucket and a present week start. -/
def flushBucket (weeklyMenus : List WeeklyMenu) (currentWeekMenus : List DailyMenu)
    (currentWeekStartDate : Option Nat) : List WeeklyMenu :=
  match currentWeekStartDate with
  | some w =>
    if currentWeekMenus ≠ [] then
      weeklyMenus ++ [{ startDate := w, endDate := endOfWeekM w, dailyMenus := currentWeekMenus }]
    else weeklyMenus
  | none => weeklyMenus

structure BucketAcc where
  weeklyMenus : List WeeklyMenu
  currentWeekMenus : List DailyMenu
  currentWeekStartDate : Option Nat
deriving DecidableEq, Repr

/-- One iteration of the bucketing loop. -/
def bucketStep (acc : BucketAcc) (dailyMenu : DailyMenu) : BucketAcc :=
  let weekStart := mondayOf dailyMenu.date
  let newWeek :=
    match acc.currentWeekStartDate with
    | none => true
    | some cws => !isSameWeekM weekStart cws
  if newWeek then
    ⟨flushBucket acc.weeklyMenus acc.currentWeekMenus acc.currentWeekStartDate,
     [dailyMenu], some weekStart⟩
  else
    ⟨acc.weeklyMenus, acc.currentWeekMenus ++ [dailyMenu], acc.currentWeekStartDate⟩

def groupDailyMenusByWeek (dailyMenus : List DailyMenu) : List WeeklyMenu :=
  if dailyMenus.isEmpty then []
  else
    let acc := (sortMenus dailyMenus).foldl bucketStep ⟨[], [], none⟩
    flushBucket acc.weeklyMenus acc.currentWeekMenus acc.currentWeekStartDate

/-! ### Arithmetic facts about week starts -/

theorem mondayOf_le (n : Nat) : mondayOf n ≤ n := by
  simp only [mondayOf]
  omega

theorem le_mondayOf_add_six (n : Nat) : n ≤ mondayOf n + 6 := by
  simp only [mondayOf]
  omega

theorem mondayOf_mono {a b : Nat} (h : a ≤ b) : mondayOf a ≤ mondayOf b := by
  simp only [mondayOf]
  omega

theorem mondayOf_idem (n : Nat) : mondayOf (mondayOf n) = mondayOf n := by
  simp only [mondayOf]
  omega

/-! ### Helper lemmas: serialization round trips -/

theorem menuItem_roundtrip (item : MenuItem) : MenuItem.fromJSON item.toJSON = item := rfl

theorem dailyMenu_roundtrip (menu : DailyMenu) : DailyMenu.fromJSON menu.toJSON = menu := by
  simp only [DailyMenu.fromJSON, DailyMenu.toJSON, DailyMenu.build, Option.getD_some,
    List.map_map]
  have hmap : menu.menuItems.map (MenuItem.fromJSON ∘ MenuItem.toJSON) = menu.menuItems := by
    simp [Function.comp_def, menuItem_roundtrip]
  rw [hmap]

theorem weeklyMenu_roundtrip (menu : WeeklyMenu) : WeeklyMenu.fromJSON menu.toJSON = menu := by
  simp only [WeeklyMenu.fromJSON, WeeklyMenu.toJSON, Option.getD_some, List.map_map]
  have hmap : menu.dailyMenus.map (DailyMenu.fromJSON ∘ DailyMenu.toJSON) = menu.dailyMenus := by
    simp [Function.comp_def, dailyMenu_roundtrip]
  rw [hmap]

theorem monthlyMenu_roundtrip (menu : MonthlyMenu) : MonthlyMenu.fromJSON menu.toJSON = menu := by
  simp only [MonthlyMenu.fromJSON, MonthlyMenu.toJSON, Option.getD_some, List.map_map]
  have hmap : menu.weeklyMenus.map (WeeklyMenu.fromJSON ∘ WeeklyMenu.toJSON) = menu.weeklyMenus := by
    simp [Function.comp_def, weeklyMenu_roundtrip]
  rw [hmap]

/-- C6: serialization round-trips at every hierarchy level — `fromJSON (toJSON x)`
reproduces `x` field for field (dates carried at day precision, the information
content of their `yyyy-MM-dd` rendering) — and a `MenuItem` named
"Vegan Corn & Chile Tamales" whose serialized form carries no
vegan/vegetarian flags deserializes with `isVegan = true` and
`isVegetarian = true` by the constructor's name-based inference. -/
theorem serialization_roundtrip_spec :
    (∀ item : MenuItem, MenuItem.fromJSON item.toJSON = item) ∧
    (∀ menu : DailyMenu, DailyMenu.fromJSON menu.toJSON = menu) ∧
    (∀ menu : WeeklyMenu, WeeklyMenu.fromJSON menu.toJSON = menu) ∧
    (∀ menu : MonthlyMenu, MonthlyMenu.fromJSON menu.toJSON = menu) ∧
    (MenuItem.fromJSON { name := "Vegan Corn & Chile Tamales" }).isVegan = true ∧
    (MenuItem.fromJSON { name := "Vegan Corn & Chile Tamales" }).isVegetarian = true :=
  ⟨menuItem_roundtrip, dailyMenu_roundtrip, weeklyMenu_roundtrip, monthlyMenu_roundtrip,
   by decide, by decide⟩

/-- C7 (counterexample): the constructor copies explicitly supplied flags
verbatim, so the input `{ isVegan: true, isVegetarian: false }` produces a
`MenuItem` violating `isVegan ⇒ isVegetarian`. -/
theorem menuItem_vegan_invariant_counterexample :
    (MenuItem.build { name := "x", isVegetarian := some false, isVegan := some true }).isVegan
      = true ∧
    (MenuItem.build { name := "x", isVegetarian := some false, isVegan := some true }).isVegetarian
      = false := by
  constructor <;> rfl

/-- C7 (amended): `isVegan ⇒ isVegetarian` holds for every constructed
`MenuItem` except when the input explicitly sets `isVegetarian` to `false`
(the constructor copies an explicit flag verbatim); in particular it holds
whenever `isVegetarian` is omitted and inferred. -/
theorem menuItem_vegan_implies_vegetarian (data : MenuItemData)
    (h : data.isVegetarian ≠ some false) :
    (MenuItem.build data).isVegan = true → (MenuItem.build data).isVegetarian = true := by
  intro hv
  simp only [MenuItem.build] at hv ⊢
  cases hveg : data.isVegetarian with
  | none => simp [hveg, hv]
  | some b =>
    cases b with
    | false => exact absurd hveg h
    | true => simp [hveg]

/-- Witness for C7's amended theorem at a concrete inferred-flags input. -/
theorem menuItem_vegan_implies_vegetarian_witness :
    ({ name := "Vegan Pasta" } : MenuItemData).isVegetarian ≠ some false ∧
    ((MenuItem.build { name := "Vegan Pasta" }).isVegan = true →
      (MenuItem.build { name := "Vegan Pasta" }).isVegetarian = true) :=
  ⟨by decide, menuItem_vegan_implies_vegetarian { name := "Vegan Pasta" } (by decide)⟩

/-! ### C1: the temporal index query -/

/-- The two test buckets of the specification: Jan 1–7 and Jan 8–14, 2024. -/
def janWeek1 : WeeklyMenu :=
  { startDate := rataDie 2024 1 1, endDate := rataDie 2024 1 7, dailyMenus := [] }

def janWeek2 : WeeklyMenu :=
  { startDate := rataDie 2024 1 8, endDate := rataDie 2024 1 14, dailyMenus := [] }

def janMonthlyMenu : MonthlyMenu := { year := 2024, month := 1, weeklyMenus := [janWeek1, janWeek2] }

/-- C1: `getWeeklyMenuForDate` resolves a weekday date to a stored week whose
`[startDate, endDate]` range contains it, and a weekend date to a stored week
starting on or after the next Monday (`date + 1` for Sunday, `date + 2` for
Saturday); in both cases the result is `none` exactly when no stored week
satisfies the rule.  Concretely, with buckets Jan 1–7 and Jan 8–14 2024:
Jan 3 resolves to the first bucket, Jan 6 and Jan 7 to the second, and
Jan 20 to `none`. -/
theorem getWeeklyMenuForDate_spec :
    (∀ (m : MonthlyMenu) (t : Nat), ¬(jsGetDay t = 0 ∨ jsGetDay t = 6) →
      (∀ w, m.getWeeklyMenuForDate t = some w →
        w ∈ m.weeklyMenus ∧ w.startDate ≤ t ∧ t ≤ w.endDate) ∧
      (m.getWeeklyMenuForDate t = none ↔
        ∀ w ∈ m.weeklyMenus, ¬(w.startDate ≤ t ∧ t ≤ w.endDate))) ∧
    (∀ (m : MonthlyMenu) (t : Nat), jsGetDay t = 0 ∨ jsGetDay t = 6 →
      (∀ w, m.getWeeklyMenuForDate t = some w →
        w ∈ m.weeklyMenus ∧ t + (if jsGetDay t = 0 then 1 else 2) ≤ w.startDate ∧
          jsGetDay (t + (if jsGetDay t = 0 then 1 else 2)) = 1) ∧
      (m.getWeeklyMenuForDate t = none ↔
        ∀ w ∈ m.weeklyMenus, ¬(t + (if jsGetDay t = 0 then 1 else 2) ≤ w.startDate))) ∧
    janMonthlyMenu.getWeeklyMenuForDate (rataDie 2024 1 3) = some janWeek1 ∧
    janMonthlyMenu.getWeeklyMenuForDate (rataDie 2024 1 6) = some janWeek2 ∧
    janMonthlyMenu.getWeeklyMenuForDate (rataDie 2024 1 7) = some janWeek2 ∧
    janMonthlyMenu.getWeeklyMenuForDate (rataDie 2024 1 20) = none := by
  refine ⟨?_, ?_, by decide, by decide, by decide, by decide⟩
  · intro m t ht
    have hcond : (jsGetDay t == 0 || jsGetDay t == 6) = false := by
      simp only [Bool.or_eq_false_iff, beq_eq_false_iff_ne]
      exact ⟨fun h => ht (Or.inl h), fun h => ht (Or.inr h)⟩
    constructor
    · intro w hw
      simp only [MonthlyMenu.getWeeklyMenuForDate, hcond, Bool.false_eq_true, if_false] at hw
      have hmem := List.mem_of_find?_eq_some hw
      have hpred := List.find?_some hw
      simp only [Bool.and_eq_true, decide_eq_true_eq] at hpred
      exact ⟨hmem, hpred.1, hpred.2⟩
    · simp only [MonthlyMenu.getWeeklyMenuForDate, hcond, Bool.false_eq_true, if_false,
        List.find?_eq_none, Bool.and_eq_true, decide_eq_true_eq, not_and]
  · intro m t ht
    have hcond : (jsGetDay t == 0 || jsGetDay t == 6) = true := by
      rcases ht with h | h <;> simp [h]
    constructor
    · intro w hw
      simp only [MonthlyMenu.getWeeklyMenuForDate, hcond, if_true, beq_iff_eq] at hw
      have hmem := List.mem_of_find?_eq_some hw
      have hpred := List.find?_some hw
      simp only [ge_iff_le, decide_eq_true_eq] at hpred
      refine ⟨hmem, hpred, ?_⟩
      rcases ht with h | h
      · rw [if_pos h]
        simp only [jsGetDay] at h ⊢
        omega
      · have h0 : ¬(jsGetDay t = 0) := by
          rw [h]
          omega
        rw [if_neg h0]
        simp only [jsGetDay] at h ⊢
        omega
    · simp only [MonthlyMenu.getWeeklyMenuForDate, hcond, if_true,
        List.find?_eq_none, ge_iff_le, decide_eq_true_eq, beq_iff_eq]

/-- Witness for C1 at the weekday Jan 3, 2024 and the first January bucket. -/
theorem getWeeklyMenuForDate_spec_witness :
    janWeek1 ∈ janMonthlyMenu.weeklyMenus ∧
    janWeek1.startDate ≤ rataDie 2024 1 3 ∧ rataDie 2024 1 3 ≤ janWeek1.endDate :=
  (getWeeklyMenuForDate_spec.1 janMonthlyMenu (rataDie 2024 1 3) (by decide)).1
    janWeek1 (by decide)

/-! ### C2: the title normalizer -/

theorem splitAtSep_eq_none (l : List Char) :
    splitAtSep l = none ↔ ∀ i, sepMatchAt (l.drop i) = false := by
  induction l with
  | nil => simp [splitAtSep, sepMatchAt]
  | cons c rest ih =>
    constructor
    · intro h i
      match i with
      | 0 =>
        simp only [List.drop_zero]
        by_contra hm
        simp only [Bool.not_eq_false] at hm
        simp [splitAtSep, hm] at h
      | Nat.succ j =>
        simp only [List.drop_succ_cons]
        have hrest : splitAtSep rest = none := by
          by_cases hm : sepMatchAt (c :: rest) = true
          · simp [splitAtSep, hm] at h
          · simp only [Bool.not_eq_true] at hm
            cases h2 : splitAtSep rest with
            | none => rfl
            | some pre => simp [splitAtSep, hm, h2] at h
        exact (ih.mp hrest) j
    · intro h
      have h0 := h 0
      simp only [List.drop_zero] at h0
      have hrest : splitAtSep rest = none := by
        refine ih.mpr fun i => ?_
        have := h (i + 1)
        simpa using this
      simp [splitAtSep, h0, hrest]

theorem splitAtSep_spec_some (l : List Char) (pre : List Char)
    (h : splitAtSep l = some pre) :
    pre = l.take pre.length ∧ sepMatchAt (l.drop pre.length) = true ∧
      ∀ j < pre.length, sepMatchAt (l.drop j) = false := by
  induction l generalizing pre with
  | nil => simp [splitAtSep] at h
  | cons c rest ih =>
    by_cases hm : sepMatchAt (c :: rest) = true
    · simp only [splitAtSep, hm, if_true, Option.some_inj] at h
      subst h
      simpa using hm
    · simp only [Bool.not_eq_true] at hm
      cases h2 : splitAtSep rest with
      | none => simp [splitAtSep, hm, h2] at h
      | some pre2 =>
        simp only [splitAtSep, hm, Bool.false_eq_true, if_false, h2, Option.some_inj] at h
        subst h
        obtain ⟨htake, hsep, hnone⟩ := ih pre2 h2
        refine ⟨?_, ?_, ?_⟩
        · simp only [List.length_cons, List.take_succ_cons]
          exact congrArg (c :: ·) htake
        · simpa using hsep
        · intro j hj
          match j with
          | 0 => simpa using hm
          | Nat.succ k =>
            simp only [List.drop_succ_cons]
            exact hnone k (by simpa using hj)

theorem subOccurs_of_isPrefixOf {pat s : List Char} (h : pat.isPrefixOf s) :
    subOccurs pat s = true := by
  cases s with
  | nil =>
    cases pat with
    | nil => rfl
    | cons a t => simp [List.isPrefixOf] at h
  | cons a t => simp [subOccurs, h]

theorem subOccurs_of_suffix {pat s l : List Char} (hs : s <:+ l)
    (h : subOccurs pat s = true) : subOccurs pat l = true := by
  obtain ⟨t, rfl⟩ := hs
  induction t with
  | nil => simpa using h
  | cons a t ih => simp [subOccurs, ih]

/-- A `\s+with\s+` match anywhere inside the text requires a literal `with`
substring, so in particular a lone `&` can never produce a split. -/
theorem sepMatch_implies_with (l : List Char) (i : Nat)
    (h : sepMatchAt (l.drop i) = true) : subOccurs "with".data l = true := by
  rcases hd : l.drop i with _ | ⟨c, rest⟩
  · rw [hd] at h
    simp [sepMatchAt] at h
  · rw [hd] at h
    simp only [sepMatchAt, Bool.and_eq_true] at h
    obtain ⟨-, hpref, -⟩ := h
    have h1 : subOccurs "with".data (rest.dropWhile Char.isWhitespace) = true :=
      subOccurs_of_isPrefixOf hpref
    have h2 : subOccurs "with".data rest = true :=
      subOccurs_of_suffix (List.dropWhile_suffix Char.isWhitespace) h1
    have h3 : subOccurs "with".data (c :: rest) = true := by
      simp [subOccurs, h2]
    have h4 : (c :: rest) <:+ l := by
      rw [← hd]
      exact List.drop_suffix i l
    exact subOccurs_of_suffix h4 h3

/-- C2: the title normalizer splits only on `with` surrounded by whitespace:
on a split the name is the trimmed text strictly before the leftmost
separator match and the description is the entire decoded text; with no
separator, name and description are both the decoded text; any text with no
literal `with` substring (in particular one that only contains `&`) is never
split; "Chicken & Waffles with Syrup" yields name "Chicken & Waffles" with
the full text as description; and the `&#39;` entity really is decoded to an
apostrophe, both by the title decoder and inside the normalizer. -/
theorem parseMenuItemText_spec :
    (∀ text : String,
      (parseMenuItemText text).2 = strReplace (strReplace text "&amp;" "&") aposEntity aposStr ∧
      (splitAtSep (strReplace (strReplace text "&amp;" "&") aposEntity aposStr).data = none →
        (parseMenuItemText text).1
          = strReplace (strReplace text "&amp;" "&") aposEntity aposStr) ∧
      (∀ pre,
        splitAtSep (strReplace (strReplace text "&amp;" "&") aposEntity aposStr).data = some pre →
        (parseMenuItemText text).1 = strTrim ⟨pre⟩ ∧
        pre = (strReplace (strReplace text "&amp;" "&") aposEntity aposStr).data.take pre.length ∧
        sepMatchAt
          ((strReplace (strReplace text "&amp;" "&") aposEntity aposStr).data.drop pre.length)
          = true ∧
        ∀ j < pre.length,
          sepMatchAt ((strReplace (strReplace text "&amp;" "&") aposEntity aposStr).data.drop j)
            = false) ∧
      (subOccurs "with".data
          (strReplace (strReplace text "&amp;" "&") aposEntity aposStr).data = false →
        (parseMenuItemText text).1
          = strReplace (strReplace text "&amp;" "&") aposEntity aposStr)) ∧
    parseMenuItemText "Chicken & Waffles with Syrup"
      = ("Chicken & Waffles", "Chicken & Waffles with Syrup") ∧
    decodeTitle "Moe&#39;s Bagel" = "Moe" ++ aposStr ++ "s Bagel" ∧
    parseMenuItemText "Moe&#39;s Bagel with Cream Cheese"
      = ("Moe" ++ aposStr ++ "s Bagel",
         "Moe" ++ aposStr ++ "s Bagel with Cream Cheese") := by
  refine ⟨?_, by decide, by decide, by decide⟩
  intro text
  refine ⟨?_, ?_, ?_, ?_⟩
  · simp only [parseMenuItemText]
    cases h : splitAtSep (strReplace (strReplace text "&amp;" "&") aposEntity aposStr).data <;>
      simp [h]
  · intro h
    simp [parseMenuItemText, h]
  · intro pre h
    refine ⟨by simp [parseMenuItemText, h], splitAtSep_spec_some _ pre h⟩
  · intro h
    have hnone : splitAtSep
        (strReplace (strReplace text "&amp;" "&") aposEntity aposStr).data = none := by
      rw [splitAtSep_eq_none]
      intro i
      by_contra hm
      simp only [Bool.not_eq_false] at hm
      exact absurd (sepMatch_implies_with _ i hm) (by simp [h])
    simp [parseMenuItemText, hnone]

/-- Witness for C2 at the concrete title "Chicken & Waffles with Syrup". -/
theorem parseMenuItemText_spec_witness :
    (parseMenuItemText "Chicken & Waffles with Syrup").1 = strTrim ⟨"Chicken & Waffles".data⟩ :=
  (((parseMenuItemText_spec.1 "Chicken & Waffles with Syrup").2.2.1
    "Chicken & Waffles".data) (by decide)).1

/-! ### C5: date resolution and the month adjustment -/

/-- A generic invariant-preservation principle for `foldl`. -/
theorem foldl_preserves {σ α : Type} (P : σ → Prop) (Q : α → Prop) (f : σ → α → σ)
    (hstep : ∀ s a, P s → Q a → P (f s a)) :
    ∀ (l : List α), (∀ a ∈ l, Q a) → ∀ s, P s → P (l.foldl f s) := by
  intro l
  induction l with
  | nil => exact fun _ s hP => hP
  | cons a t ih =>
    intro hQ s hP
    exact ih (fun x hx => hQ x (List.mem_cons_of_mem a hx)) _
      (hstep s a hP (hQ a (List.mem_cons_self a t)))

/-- Zero-based month conversion: for a one-based month `1 ≤ m ≤ 12`, the JS
constructor applied to month index `m - 1` lands in calendar month `m` — of
year `y` itself when `y ≥ 100`, and of year `1900 + y` when `y ≤ 99` under
the constructor's two-digit-year rule. -/
theorem mkJsDate_month_adjust (y m d : Nat) (h1 : 1 ≤ m) (h2 : m ≤ 12) :
    mkJsDate y (m - 1) d = rataDie (if y ≤ 99 then 1900 + y else y) m 1 + (d - 1) := by
  simp only [mkJsDate]
  by_cases hy : y ≤ 99
  · rw [if_pos hy]
    have hdiv : (12 * (1900 + y) + (m - 1)) / 12 = 1900 + y := by omega
    have hmod : (12 * (1900 + y) + (m - 1)) % 12 + 1 = m := by omega
    rw [hdiv, hmod]
  · rw [if_neg hy]
    have hdiv : (12 * y + (m - 1)) / 12 = y := by omega
    have hmod : (12 * y + (m - 1)) % 12 + 1 = m := by omega
    rw [hdiv, hmod]

theorem step0_dateInfo_invalid (s : State0) (d m y : Int)
    (h : d ≤ 0 ∨ y ≤ 0 ∨ m < 0) :
    step0 s (.dateInfo d m y) = s := by
  have hc : ¬(d > 0 ∧ (if m ≥ 0 then m + 1 else 0) > 0 ∧ y > 0) := by
    rintro ⟨hd, hm, hy⟩
    have hm0 : m ≥ 0 := by
      by_contra hneg
      rw [if_neg hneg] at hm
      omega
    rw [if_pos hm0] at hm
    rcases h with h | h | h <;> omega
  simp only [step0]
  rw [if_neg hc]

theorem step0_dateInfo_valid (s : State0) (box : DayBox0) (d m y : Int)
    (hbox : s.currentDayBox = some box) (hd : 0 < d) (hm : 0 ≤ m) (hy : 0 < y) :
    step0 s (.dateInfo d m y)
      = { s with currentDayBox := some { box with date := some (mkJsDate y.toNat m.toNat d.toNat) } } := by
  have hc : d > 0 ∧ (if m ≥ 0 then m + 1 else 0) > 0 ∧ y > 0 :=
    ⟨hd, by rw [if_pos hm]; omega, hy⟩
  simp only [step0]
  rw [if_pos hc, hbox]
  have harg : m + 1 - 1 = m := by omega
  rw [if_pos hm, harg]

theorem step1_dateInfo_invalid (mt : MealType) (s : State1) (d m y : Int)
    (h : d ≤ 0 ∨ y ≤ 0 ∨ m < 0) :
    step1 mt s (.dateInfo d m y) = s := by
  have hc : ¬(d > 0 ∧ (if m ≥ 0 then m + 1 else 0) > 0 ∧ y > 0) := by
    rintro ⟨hd, hm, hy⟩
    have hm0 : m ≥ 0 := by
      by_contra hneg
      rw [if_neg hneg] at hm
      omega
    rw [if_pos hm0] at hm
    rcases h with h | h | h <;> omega
  simp only [step1]
  rw [if_neg hc]

theorem step1_dateInfo_valid (mt : MealType) (s : State1) (box : DayBox1) (d m y : Int)
    (hbox : s.currentDayBox = some box) (hd : 0 < d) (hm : 0 ≤ m) (hy : 0 < y) :
    step1 mt s (.dateInfo d m y)
      = { s with currentDayBox := some { box with date := some (mkJsDate y.toNat m.toNat d.toNat) } } := by
  have hc : d > 0 ∧ (if m ≥ 0 then m + 1 else 0) > 0 ∧ y > 0 :=
    ⟨hd, by rw [if_pos hm]; omega, hy⟩
  simp only [step1]
  rw [if_pos hc, hbox]
  have harg : m + 1 - 1 = m := by omega
  rw [if_pos hm, harg]

/-- `P0` states in which no date has ever been resolved. -/
def NoDateBoxes0 (s : State0) : Prop :=
  s.dayBoxes = [] ∧ ∀ b, s.currentDayBox = some b → b.date = none

theorem completeDay0_noDate (s : State0)
    (h : ∀ b, s.currentDayBox = some b → b.date = none) :
    completeDay0 s = s.dayBoxes := by
  rcases s with ⟨dbs, cdb, cmi⟩
  rcases cdb with _ | box
  · rfl
  · have hb : box.date = none := h box rfl
    rcases cmi with _ | it
    · simp [completeDay0, hb]
    · by_cases hn : it.name = "" <;> simp [completeDay0, hb, hn]

/-- The `fsCalendarInfo` handler of `P0` never alters the saved boxes or the
current box's date. -/
theorem step0_itemInfo_frame (s : State0) :
    (step0 s .itemInfo).dayBoxes = s.dayBoxes ∧
    ∀ b, (step0 s .itemInfo).currentDayBox = some b →
      ∃ b0, s.currentDayBox = some b0 ∧ b.date = b0.date := by
  rcases s with ⟨dbs, cdb, cmi⟩
  rcases cdb with _ | box
  · rcases cmi with _ | it
    · exact ⟨rfl, fun b hb => by simp [step0] at hb⟩
    · exact ⟨rfl, fun b hb => by simp [step0] at hb⟩
  · rcases cmi with _ | it
    · refine ⟨rfl, fun b hb => ⟨box, rfl, ?_⟩⟩
      simp only [step0, Option.some_inj] at hb
      rw [← hb]
    · by_cases hn : it.name = ""
      · refine ⟨by simp [step0, hn], fun b hb => ⟨box, rfl, ?_⟩⟩
        simp only [step0, hn, ne_eq, not_true_eq_false, if_false, Option.some_inj] at hb
        rw [← hb]
      · refine ⟨by simp [step0, hn], fun b hb => ⟨box, rfl, ?_⟩⟩
        simp only [step0, hn, ne_eq, not_false_eq_true, if_true, Option.some_inj] at hb
        rw [← hb]

/-- The `fsElementEventColorIcon` handler of `P0` only touches the current
menu item. -/
theorem step0_colorIcon_frame (s : State0) (style : String) :
    (step0 s (.colorIcon style)).dayBoxes = s.dayBoxes ∧
    (step0 s (.colorIcon style)).currentDayBox = s.currentDayBox := by
  rcases s with ⟨dbs, cdb, cmi⟩
  rcases cmi with _ | it
  · exact ⟨rfl, rfl⟩
  · cases hp : parseStyleColor style.data <;> simp [step0, hp]

/-- The `fsCalendarEventTitle` handler of `P0` only touches the current menu
item. -/
theorem step0_eventTitle_frame (s : State0) (t : String) :
    (step0 s (.eventTitle t)).dayBoxes = s.dayBoxes ∧
    (step0 s (.eventTitle t)).currentDayBox = s.currentDayBox := by
  rcases s with ⟨dbs, cdb, cmi⟩
  rcases cmi with _ | it
  · exact ⟨rfl, rfl⟩
  · by_cases ht : strTrim t = ""
    · simp [step0, ht]
    · by_cases ha : isAdminTitle adminTermsP0 (decodeTitle (strTrim t)) = true
      · simp [step0, ht, ha]
      · simp [step0, ht, ha]

theorem pushItem1_frame (s : State1) :
    (pushItem1 s).completedDays = s.completedDays ∧
    ((pushItem1 s).currentMenuItem = s.currentMenuItem) ∧
    ∀ b, (pushItem1 s).currentDayBox = some b →
      ∃ b0, s.currentDayBox = some b0 ∧ b.date = b0.date := by
  rcases s with ⟨cdb, cmi, comp⟩
  rcases cmi with _ | it
  · rcases cdb with _ | box
    · exact ⟨rfl, rfl, fun b hb => by simp [pushItem1] at hb⟩
    · refine ⟨rfl, rfl, fun b hb => ⟨box, rfl, ?_⟩⟩
      simp only [pushItem1, Option.some_inj] at hb
      rw [← hb]
  · rcases cdb with _ | box
    · exact ⟨rfl, rfl, fun b hb => by simp [pushItem1] at hb⟩
    · by_cases hn : it.name = ""
      · refine ⟨by simp [pushItem1, hn], by simp [pushItem1, hn], fun b hb => ⟨box, rfl, ?_⟩⟩
        simp only [pushItem1, hn, ne_eq, not_true_eq_false, if_false, Option.some_inj] at hb
        rw [← hb]
      · refine ⟨by simp [pushItem1, hn], by simp [pushItem1, hn], fun b hb => ⟨box, rfl, ?_⟩⟩
        simp only [pushItem1, hn, ne_eq, not_false_eq_true, if_true, Option.some_inj] at hb
        rw [← hb]

theorem step1_itemInfo_frame (mt : MealType) (s : State1) :
    (step1 mt s .itemInfo).completedDays = s.completedDays ∧
    ∀ b, (step1 mt s .itemInfo).currentDayBox = some b →
      ∃ b0, s.currentDayBox = some b0 ∧ b.date = b0.date := by
  obtain ⟨h1, h2, h3⟩ := pushItem1_frame s
  exact ⟨h1, fun b hb => h3 b hb⟩

theorem step1_colorIcon_frame (mt : MealType) (s : State1) (style : String) :
    (step1 mt s (.colorIcon style)).completedDays = s.completedDays ∧
    (step1 mt s (.colorIcon style)).currentDayBox = s.currentDayBox := by
  rcases s with ⟨cdb, cmi, comp⟩
  cases hp : parseStyleColor style.data
  · simp [step1, hp]
  · rcases cmi with _ | it <;> simp [step1, hp]

theorem step1_eventTitle_frame (mt : MealType) (s : State1) (t : String) :
    (step1 mt s (.eventTitle t)).completedDays = s.completedDays ∧
    (step1 mt s (.eventTitle t)).currentDayBox = s.currentDayBox := by
  rcases s with ⟨cdb, cmi, comp⟩
  by_cases ht : strTrim t = ""
  · simp [step1, ht]
  · rcases cmi with _ | it
    · simp [step1, ht]
    · by_cases ha : isAdminTitle adminTermsP1 (decodeTitle (strTrim t)) = true
      · simp [step1, ht, ha]
      · simp [step1, ht, ha]

theorem step0_preserves_noDate (s : State0) (e : TagEvent)
    (hs : NoDateBoxes0 s)
    (he : ∀ d m y, e = .dateInfo d m y → d ≤ 0 ∨ y ≤ 0 ∨ m < 0) :
    NoDateBoxes0 (step0 s e) := by
  obtain ⟨h1, h2⟩ := hs
  cases e with
  | daybox cls =>
    have hcd : completeDay0 s = s.dayBoxes := completeDay0_noDate s h2
    simp only [step0]
    rw [hcd, h1]
    split
    · exact ⟨rfl, fun b hb => by simp at hb⟩
    · split
      · refine ⟨rfl, fun b hb => ?_⟩
        simp only [Option.some_inj] at hb
        rw [← hb]
      · exact ⟨rfl, fun b hb => by simp at hb⟩
  | dateInfo d m y =>
    rw [step0_dateInfo_invalid s d m y (he d m y rfl)]
    exact ⟨h1, h2⟩
  | itemInfo =>
    obtain ⟨hf1, hf2⟩ := step0_itemInfo_frame s
    refine ⟨hf1.trans h1, fun b hb => ?_⟩
    obtain ⟨b0, hb0, hdate⟩ := hf2 b hb
    rw [hdate]
    exact h2 b0 hb0
  | colorIcon style =>
    obtain ⟨hf1, hf2⟩ := step0_colorIcon_frame s style
    exact ⟨hf1.trans h1, fun b hb => h2 b (hf2 ▸ hb)⟩
  | eventTitle t =>
    obtain ⟨hf1, hf2⟩ := step0_eventTitle_frame s t
    exact ⟨hf1.trans h1, fun b hb => h2 b (hf2 ▸ hb)⟩

/-- `P1` states in which no date has ever been resolved. -/
def NoDateBoxes1 (s : State1) : Prop :=
  s.completedDays = [] ∧ ∀ b, s.currentDayBox = some b → b.date = none

theorem completeDayBox1_noDate (s : State1)
    (h : ∀ b, s.currentDayBox = some b → b.date = none) :
    completeDayBox1 s = s.completedDays := by
  rcases s with ⟨cdb, cmi, comp⟩
  rcases cdb with _ | box
  · rfl
  · have hb : box.date = none := h box rfl
    simp [completeDayBox1, hb]

theorem step1_preserves_noDate (mt : MealType) (s : State1) (e : TagEvent)
    (hs : NoDateBoxes1 s)
    (he : ∀ d m y, e = .dateInfo d m y → d ≤ 0 ∨ y ≤ 0 ∨ m < 0) :
    NoDateBoxes1 (step1 mt s e) := by
  obtain ⟨h1, h2⟩ := hs
  cases e with
  | daybox cls =>
    by_cases hw : isWeekendBox cls = true
    · simp only [step1, hw, if_true]
      exact ⟨h1, h2⟩
    · have hcd : completeDayBox1 s = s.completedDays := completeDayBox1_noDate s h2
      simp only [step1, hw, Bool.false_eq_true, if_false]
      refine ⟨hcd.trans h1, fun b hb => ?_⟩
      simp only [Option.some_inj] at hb
      rw [← hb]
  | dateInfo d m y =>
    rw [step1_dateInfo_invalid mt s d m y (he d m y rfl)]
    exact ⟨h1, h2⟩
  | itemInfo =>
    obtain ⟨hf1, hf2⟩ := step1_itemInfo_frame mt s
    refine ⟨hf1.trans h1, fun b hb => ?_⟩
    obtain ⟨b0, hb0, hdate⟩ := hf2 b hb
    rw [hdate]
    exact h2 b0 hb0
  | colorIcon style =>
    obtain ⟨hf1, hf2⟩ := step1_colorIcon_frame mt s style
    exact ⟨hf1.trans h1, fun b hb => h2 b (hf2 ▸ hb)⟩
  | eventTitle t =>
    obtain ⟨hf1, hf2⟩ := step1_eventTitle_frame mt s t
    exact ⟨hf1.trans h1, fun b hb => h2 b (hf2 ▸ hb)⟩

theorem parse0_noValidDate (evs : List TagEvent) (mt : MealType)
    (h : ∀ d m y, TagEvent.dateInfo d m y ∈ evs → d ≤ 0 ∨ y ≤ 0 ∨ m < 0) :
    parseCalendarFragment0 evs mt = [] := by
  have hInv : NoDateBoxes0 (evs.foldl step0 State0.init) := by
    refine foldl_preserves NoDateBoxes0
      (fun e => ∀ d m y, e = .dateInfo d m y → d ≤ 0 ∨ y ≤ 0 ∨ m < 0) step0
      step0_preserves_noDate evs (fun a ha d m y heq => h d m y (heq ▸ ha))
      State0.init ⟨rfl, fun b hb => by cases hb⟩
  simp only [parseCalendarFragment0]
  rw [completeDay0_noDate _ hInv.2, hInv.1]
  rfl

theorem parse1_noValidDate (evs : List TagEvent) (mt : MealType)
    (h : ∀ d m y, TagEvent.dateInfo d m y ∈ evs → d ≤ 0 ∨ y ≤ 0 ∨ m < 0) :
    parseCalendarFragment1 evs mt = [] := by
  have hInv : NoDateBoxes1 (evs.foldl (step1 mt) State1.init) := by
    refine foldl_preserves NoDateBoxes1
      (fun e => ∀ d m y, e = .dateInfo d m y → d ≤ 0 ∨ y ≤ 0 ∨ m < 0) (step1 mt)
      (step1_preserves_noDate mt) evs (fun a ha d m y heq => h d m y (heq ▸ ha))
      State1.init ⟨rfl, fun b hb => by cases hb⟩
  obtain ⟨hp1, -, hp3⟩ := pushItem1_frame (evs.foldl (step1 mt) State1.init)
  simp only [parseCalendarFragment1]
  rw [completeDayBox1_noDate]
  · exact hp1.trans hInv.1
  · intro b hb
    obtain ⟨b0, hb0, hdate⟩ := hp3 b hb
    rw [hdate]
    exact hInv.2 b0 hb0

/-- C5: while a day box is open, a date element with `day > 0`,
`month ≥ 0` (zero-based, adjusted to calendar month `month + 1`) and
`year > 0` resolves the current day's date, and an invalid triple
(`day ≤ 0`, `year ≤ 0`, or a negative month index) leaves the state — in
particular the date — exactly unchanged, in both scraper revisions; the
zero-based month adjustment lands index `m - 1` in calendar month `m` of
year `y` for `y ≥ 100` and of year `1900 + y` for a two-digit `y` (index 2
resolves to March on the concrete examples, in 2024 for data-year 2024 and
in 1999 for data-year 99); and an event sequence whose date elements are
all invalid produces no `DailyMenu` at all from either revision. -/
theorem dateResolution_spec :
    (∀ y m d, 1 ≤ m → m ≤ 12 →
      mkJsDate y (m - 1) d = rataDie (if y ≤ 99 then 1900 + y else y) m 1 + (d - 1)) ∧
    (mkJsDate 2024 2 15 = rataDie 2024 3 15 ∧ mkJsDate 99 2 15 = rataDie 1999 3 15) ∧
    (∀ (s : State0) (box : DayBox0) (d m y : Int), s.currentDayBox = some box →
      0 < d → 0 ≤ m → 0 < y →
      step0 s (.dateInfo d m y) = { s with currentDayBox := some { box with date := some (mkJsDate y.toNat m.toNat d.toNat) } }) ∧
    (∀ (s : State0) (d m y : Int), d ≤ 0 ∨ y ≤ 0 ∨ m < 0 →
      step0 s (.dateInfo d m y) = s) ∧
    (∀ (mt : MealType) (s : State1) (box : DayBox1) (d m y : Int),
      s.currentDayBox = some box → 0 < d → 0 ≤ m → 0 < y →
      step1 mt s (.dateInfo d m y) = { s with currentDayBox := some { box with date := some (mkJsDate y.toNat m.toNat d.toNat) } }) ∧
    (∀ (mt : MealType) (s : State1) (d m y : Int), d ≤ 0 ∨ y ≤ 0 ∨ m < 0 →
      step1 mt s (.dateInfo d m y) = s) ∧
    (∀ (evs : List TagEvent) (mt : MealType),
      (∀ d m y, TagEvent.dateInfo d m y ∈ evs → d ≤ 0 ∨ y ≤ 0 ∨ m < 0) →
      parseCalendarFragment0 evs mt = [] ∧ parseCalendarFragment1 evs mt = []) := by
  refine ⟨mkJsDate_month_adjust, by decide, ?_, step0_dateInfo_invalid, ?_,
    step1_dateInfo_invalid, fun evs mt h => ⟨parse0_noValidDate evs mt h, parse1_noValidDate evs mt h⟩⟩
  · exact fun s box d m y hbox hd hm hy => step0_dateInfo_valid s box d m y hbox hd hm hy
  · exact fun mt s box d m y hbox hd hm hy => step1_dateInfo_valid mt s box d m y hbox hd hm hy

/-- Witness for C5: the March conversion at a concrete triple, and a concrete
event sequence whose only date element carries `day = 0`, which both
revisions parse to no days. -/
theorem dateResolution_spec_witness :
    mkJsDate 2024 (3 - 1) 15 = rataDie 2024 3 1 + (15 - 1) ∧
    parseCalendarFragment0
      [TagEvent.daybox "fsCalendarDaybox fsStateHasEvents", TagEvent.dateInfo 0 2 2024,
       TagEvent.itemInfo, TagEvent.eventTitle "Pizza"] .lunch = [] ∧
    parseCalendarFragment1
      [TagEvent.daybox "fsCalendarDaybox fsStateHasEvents", TagEvent.dateInfo 0 2 2024,
       TagEvent.itemInfo, TagEvent.eventTitle "Pizza"] .lunch = [] := by
  refine ⟨?_, ?_⟩
  · have h := dateResolution_spec.1 2024 3 15 (by decide) (by decide)
    rwa [if_neg (by decide)] at h
  have h := dateResolution_spec.2.2.2.2.2.2
    [TagEvent.daybox "fsCalendarDaybox fsStateHasEvents", TagEvent.dateInfo 0 2 2024,
     TagEvent.itemInfo, TagEvent.eventTitle "Pizza"] .lunch ?_
  · exact h
  · intro d m y hmem
    simp only [List.mem_cons, List.not_mem_nil, or_false] at hmem
    rcases hmem with h1 | h1 | h1 | h1
    · exact absurd h1 (by simp)
    · obtain ⟨hd, hm, hy⟩ := TagEvent.dateInfo.inj h1
      omega
    · exact absurd h1 (by simp)
    · exact absurd h1 (by simp)

/-! ### C4: weekend day boxes -/

theorem step0_weekend (s : State0) (cls : String) (hw : isWeekendBox cls = true) :
    step0 s (.daybox cls) = ⟨completeDay0 s, none, none⟩ := by
  simp [step0, hw]

/-- After a weekend box clears both accumulators in `P0`, every non-day-box
event leaves the state exactly unchanged. -/
theorem step0_cleared_fix (dbs : List DayBox0) (e : TagEvent)
    (he : ∀ c, e ≠ TagEvent.daybox c) :
    step0 ⟨dbs, none, none⟩ e = ⟨dbs, none, none⟩ := by
  cases e with
  | daybox c => exact absurd rfl (he c)
  | dateInfo d m y =>
    simp only [step0]
    split <;> split <;> rfl
  | itemInfo => rfl
  | colorIcon style => rfl
  | eventTitle t => rfl

theorem foldl_cleared_fix (dbs : List DayBox0) (inner : List TagEvent)
    (hinner : ∀ e ∈ inner, ∀ c, e ≠ TagEvent.daybox c) :
    List.foldl step0 ⟨dbs, none, none⟩ inner = ⟨dbs, none, none⟩ := by
  induction inner with
  | nil => rfl
  | cons a t ih =>
    rw [List.foldl_cons, step0_cleared_fix dbs a (hinner a (List.mem_cons_self a t))]
    exact ih fun e he c => hinner e (List.mem_cons_of_mem a he) c

/-- C4 (counterexample): in the `ScraperState` revision (`P1`) the weekend
marker merely skips starting a new box, so the weekend box's date and item
events land in the previously opened day box: the sequence
`daybox; weekend-daybox; date Jan 6 2024; item; title "Pizza"` emits one
`DailyMenu` dated Jan 6 (the weekend box's date) instead of none. -/
theorem weekendBox_counterexample :
    parseCalendarFragment1
      [TagEvent.daybox "fsCalendarDaybox fsStateHasEvents",
       TagEvent.daybox "fsCalendarDaybox fsCalendarWeekendDayBox",
       TagEvent.dateInfo 6 0 2024, TagEvent.itemInfo, TagEvent.eventTitle "Pizza"]
      .lunch ≠ [] ∧
    (parseCalendarFragment1
      [TagEvent.daybox "fsCalendarDaybox fsStateHasEvents",
       TagEvent.daybox "fsCalendarDaybox fsCalendarWeekendDayBox",
       TagEvent.dateInfo 6 0 2024, TagEvent.itemInfo, TagEvent.eventTitle "Pizza"]
      .lunch).map DailyMenu.date = [rataDie 2024 1 6] := by
  constructor
  · decide
  · decide

/-- C4 (amended, proved for `P0`): a weekend-marked day box clears both the
day and item accumulators to absent, and none of its contents (any run of
non-day-box events after it) affect the parse at all — the output over
`pre ++ weekend-box :: inner ++ post` equals the output with the weekend
box's contents removed. -/
theorem weekendBox_spec :
    ∀ (pre inner post : List TagEvent) (cls : String) (mt : MealType),
      isWeekendBox cls = true →
      (∀ e ∈ inner, ∀ c, e ≠ TagEvent.daybox c) →
      parseCalendarFragment0 (pre ++ TagEvent.daybox cls :: (inner ++ post)) mt
        = parseCalendarFragment0 (pre ++ TagEvent.daybox cls :: post) mt ∧
      (List.foldl step0 State0.init (pre ++ [TagEvent.daybox cls])).currentDayBox = none ∧
      (List.foldl step0 State0.init (pre ++ [TagEvent.daybox cls])).currentMenuItem = none := by
  intro pre inner post cls mt hw hinner
  have hstep : step0 (List.foldl step0 State0.init pre) (.daybox cls)
      = ⟨completeDay0 (List.foldl step0 State0.init pre), none, none⟩ :=
    step0_weekend _ cls hw
  have hsingle : List.foldl step0 State0.init (pre ++ [TagEvent.daybox cls])
      = ⟨completeDay0 (List.foldl step0 State0.init pre), none, none⟩ := by
    rw [List.foldl_append]
    exact hstep
  refine ⟨?_, by rw [hsingle], by rw [hsingle]⟩
  simp only [parseCalendarFragment0]
  have h1 : List.foldl step0 State0.init (pre ++ TagEvent.daybox cls :: (inner ++ post))
      = List.foldl step0 State0.init (pre ++ TagEvent.daybox cls :: post) := by
    have expand : pre ++ TagEvent.daybox cls :: (inner ++ post)
        = (pre ++ [TagEvent.daybox cls]) ++ inner ++ post := by simp
    have expand2 : pre ++ TagEvent.daybox cls :: post
        = (pre ++ [TagEvent.daybox cls]) ++ post := by simp
    rw [expand, expand2]
    simp only [List.foldl_append]
    rw [show List.foldl step0 (List.foldl step0 State0.init pre) [TagEvent.daybox cls]
        = ⟨completeDay0 (List.foldl step0 State0.init pre), none, none⟩ from hstep]
    rw [foldl_cleared_fix _ inner hinner]
  rw [h1]

/-- Witness for C4's amended theorem at a concrete weekend box whose
contents (a date and a titled item) are discarded by `P0`. -/
theorem weekendBox_spec_witness :
    parseCalendarFragment0
      ([TagEvent.daybox "fsCalendarDaybox fsStateHasEvents"] ++
        TagEvent.daybox "fsCalendarDaybox fsCalendarWeekendDayBox" ::
          ([TagEvent.dateInfo 6 0 2024, TagEvent.itemInfo, TagEvent.eventTitle "Pizza"] ++ []))
      .lunch
      = parseCalendarFragment0
          ([TagEvent.daybox "fsCalendarDaybox fsStateHasEvents"] ++
            TagEvent.daybox "fsCalendarDaybox fsCalendarWeekendDayBox" :: []) .lunch := by
  have h := weekendBox_spec [TagEvent.daybox "fsCalendarDaybox fsStateHasEvents"]
    [TagEvent.dateInfo 6 0 2024, TagEvent.itemInfo, TagEvent.eventTitle "Pizza"] []
    "fsCalendarDaybox fsCalendarWeekendDayBox" .lunch (by decide) ?_
  · exact h.1
  · intro e he c
    simp only [List.mem_cons, List.not_mem_nil, or_false] at he
    rcases he with rfl | rfl | rfl <;> simp

/-! ### C10: the two parser revisions -/

/-- C10 (counterexample): the two revisions disagree on an ordinary two-day
fragment.  `P1` completes a day box before its pending item is closed, so the
last item of each day box is deferred into the following one: `P0` parses the
fragment to Jan 3 [Pizza]; Jan 4 [Tacos], while `P1` drops Jan 3 entirely and
parses Jan 4 to [Pizza, Tacos]. -/
theorem parserEquivalence_counterexample :
    parseCalendarFragment0
        [TagEvent.daybox "fsCalendarDaybox fsStateHasEvents", TagEvent.dateInfo 3 0 2024,
         TagEvent.itemInfo, TagEvent.eventTitle "Pizza",
         TagEvent.daybox "fsCalendarDaybox fsStateHasEvents", TagEvent.dateInfo 4 0 2024,
         TagEvent.itemInfo, TagEvent.eventTitle "Tacos"] .lunch
      ≠ parseCalendarFragment1
        [TagEvent.daybox "fsCalendarDaybox fsStateHasEvents", TagEvent.dateInfo 3 0 2024,
         TagEvent.itemInfo, TagEvent.eventTitle "Pizza",
         TagEvent.daybox "fsCalendarDaybox fsStateHasEvents", TagEvent.dateInfo 4 0 2024,
         TagEvent.itemInfo, TagEvent.eventTitle "Tacos"] .lunch ∧
    (parseCalendarFragment0
        [TagEvent.daybox "fsCalendarDaybox fsStateHasEvents", TagEvent.dateInfo 3 0 2024,
         TagEvent.itemInfo, TagEvent.eventTitle "Pizza",
         TagEvent.daybox "fsCalendarDaybox fsStateHasEvents", TagEvent.dateInfo 4 0 2024,
         TagEvent.itemInfo, TagEvent.eventTitle "Tacos"] .lunch).map DailyMenu.date
      = [rataDie 2024 1 3, rataDie 2024 1 4] ∧
    (parseCalendarFragment1
        [TagEvent.daybox "fsCalendarDaybox fsStateHasEvents", TagEvent.dateInfo 3 0 2024,
         TagEvent.itemInfo, TagEvent.eventTitle "Pizza",
         TagEvent.daybox "fsCalendarDaybox fsStateHasEvents", TagEvent.dateInfo 4 0 2024,
         TagEvent.itemInfo, TagEvent.eventTitle "Tacos"] .lunch).map DailyMenu.date
      = [rataDie 2024 1 4] := by
  refine ⟨by decide, by decide, by decide⟩

/-- `P0` states with no item anywhere. -/
def NoItems0 (s : State0) : Prop :=
  s.dayBoxes = [] ∧ (∀ b, s.currentDayBox = some b → b.menuItems = []) ∧
    s.currentMenuItem = none

theorem completeDay0_noItems (s : State0)
    (h : ∀ b, s.currentDayBox = some b → b.menuItems = [])
    (hmi : s.currentMenuItem = none) :
    completeDay0 s = s.dayBoxes := by
  rcases s with ⟨dbs, cdb, cmi⟩
  rcases cdb with _ | box
  · rfl
  · have hb : box.menuItems = [] := h box rfl
    subst hmi
    simp [completeDay0, hb]

theorem step0_dateInfo_nobox (s : State0) (d m y : Int) (h : s.currentDayBox = none) :
    step0 s (.dateInfo d m y) = s := by
  rcases s with ⟨dbs, cdb, cmi⟩
  cases h
  by_cases hC : d > 0 ∧ (if m ≥ 0 then m + 1 else 0) > 0 ∧ y > 0
  · simp only [step0]
    rw [if_pos hC]
  · simp only [step0]
    rw [if_neg hC]

theorem step1_dateInfo_nobox (mt : MealType) (s : State1) (d m y : Int)
    (h : s.currentDayBox = none) :
    step1 mt s (.dateInfo d m y) = s := by
  rcases s with ⟨cdb, cmi, comp⟩
  cases h
  by_cases hC : d > 0 ∧ (if m ≥ 0 then m + 1 else 0) > 0 ∧ y > 0
  · simp only [step1]
    rw [if_pos hC]
  · simp only [step1]
    rw [if_neg hC]

theorem step0_dateInfo_items_frame (s : State0) (d m y : Int) :
    (step0 s (.dateInfo d m y)).dayBoxes = s.dayBoxes ∧
    (∀ b, (step0 s (.dateInfo d m y)).currentDayBox = some b →
      ∃ b0, s.currentDayBox = some b0 ∧ b.menuItems = b0.menuItems) ∧
    (step0 s (.dateInfo d m y)).currentMenuItem = s.currentMenuItem := by
  rcases s with ⟨dbs, cdb, cmi⟩
  rcases cdb with _ | box
  · rw [step0_dateInfo_nobox ⟨dbs, none, cmi⟩ d m y rfl]
    exact ⟨rfl, fun b hb => by simp at hb, rfl⟩
  · have hsome : ∀ bx : DayBox0, bx.menuItems = box.menuItems →
        ∀ b : DayBox0, some bx = some b →
        ∃ b0, some box = some b0 ∧ b.menuItems = b0.menuItems := by
      intro bx hbx b hb
      injection hb with h
      exact ⟨box, rfl, by rw [← h, hbx]⟩
    by_cases hd : 0 < d
    · by_cases hm : 0 ≤ m
      · by_cases hy : 0 < y
        · rw [step0_dateInfo_valid ⟨dbs, some box, cmi⟩ box d m y rfl hd hm hy]
          exact ⟨rfl, fun b hb =>
            hsome { box with date := some (mkJsDate y.toNat m.toNat d.toNat) } rfl b hb, rfl⟩
        · rw [step0_dateInfo_invalid ⟨dbs, some box, cmi⟩ d m y (Or.inr (Or.inl (by omega)))]
          exact ⟨rfl, fun b hb => hsome _ rfl b hb, rfl⟩
      · rw [step0_dateInfo_invalid ⟨dbs, some box, cmi⟩ d m y (Or.inr (Or.inr (by omega)))]
        exact ⟨rfl, fun b hb => hsome _ rfl b hb, rfl⟩
    · rw [step0_dateInfo_invalid ⟨dbs, some box, cmi⟩ d m y (Or.inl (by omega))]
      exact ⟨rfl, fun b hb => hsome _ rfl b hb, rfl⟩

theorem step1_dateInfo_items_frame (mt : MealType) (s : State1) (d m y : Int) :
    (step1 mt s (.dateInfo d m y)).completedDays = s.completedDays ∧
    (∀ b, (step1 mt s (.dateInfo d m y)).currentDayBox = some b →
      ∃ b0, s.currentDayBox = some b0 ∧ b.menuItems = b0.menuItems) ∧
    (step1 mt s (.dateInfo d m y)).currentMenuItem = s.currentMenuItem := by
  rcases s with ⟨cdb, cmi, comp⟩
  rcases cdb with _ | box
  · rw [step1_dateInfo_nobox mt ⟨none, cmi, comp⟩ d m y rfl]
    exact ⟨rfl, fun b hb => by simp at hb, rfl⟩
  · have hsome : ∀ bx : DayBox1, bx.menuItems = box.menuItems →
        ∀ b : DayBox1, some bx = some b →
        ∃ b0, some box = some b0 ∧ b.menuItems = b0.menuItems := by
      intro bx hbx b hb
      injection hb with h
      exact ⟨box, rfl, by rw [← h, hbx]⟩
    by_cases hd : 0 < d
    · by_cases hm : 0 ≤ m
      · by_cases hy : 0 < y
        · rw [step1_dateInfo_valid mt ⟨some box, cmi, comp⟩ box d m y rfl hd hm hy]
          exact ⟨rfl, fun b hb =>
            hsome { box with date := some (mkJsDate y.toNat m.toNat d.toNat) } rfl b hb, rfl⟩
        · rw [step1_dateInfo_invalid mt ⟨some box, cmi, comp⟩ d m y (Or.inr (Or.inl (by omega)))]
          exact ⟨rfl, fun b hb => hsome _ rfl b hb, rfl⟩
      · rw [step1_dateInfo_invalid mt ⟨some box, cmi, comp⟩ d m y (Or.inr (Or.inr (by omega)))]
        exact ⟨rfl, fun b hb => hsome _ rfl b hb, rfl⟩
    · rw [step1_dateInfo_invalid mt ⟨some box, cmi, comp⟩ d m y (Or.inl (by omega))]
      exact ⟨rfl, fun b hb => hsome _ rfl b hb, rfl⟩

theorem step0_preserves_noItems (s : State0) (e : TagEvent)
    (hs : NoItems0 s) (he : e ≠ TagEvent.itemInfo) :
    NoItems0 (step0 s e) := by
  obtain ⟨h1, h2, h3⟩ := hs
  cases e with
  | daybox cls =>
    have hcd : completeDay0 s = s.dayBoxes := completeDay0_noItems s h2 h3
    simp only [step0]
    rw [hcd, h1]
    split
    · exact ⟨rfl, fun b hb => by simp at hb, rfl⟩
    · split
      · refine ⟨rfl, fun b hb => ?_, rfl⟩
        simp only [Option.some_inj] at hb
        rw [← hb]
      · exact ⟨rfl, fun b hb => by simp at hb, rfl⟩
  | dateInfo d m y =>
    obtain ⟨hf1, hf2, hf3⟩ := step0_dateInfo_items_frame s d m y
    refine ⟨hf1.trans h1, fun b hb => ?_, hf3.trans h3⟩
    obtain ⟨b0, hb0, hitems⟩ := hf2 b hb
    rw [hitems]
    exact h2 b0 hb0
  | itemInfo => exact absurd rfl he
  | colorIcon style =>
    rcases s with ⟨dbs, cdb, cmi⟩
    cases h3
    exact ⟨h1, h2, rfl⟩
  | eventTitle t =>
    rcases s with ⟨dbs, cdb, cmi⟩
    cases h3
    exact ⟨h1, h2, rfl⟩

theorem pushItem1_of_none (s : State1) (h : s.currentMenuItem = none) :
    pushItem1 s = s := by
  rcases s with ⟨cdb, cmi, comp⟩
  cases h
  rfl

/-- `P1` states with no item anywhere. -/
def NoItems1 (s : State1) : Prop :=
  s.completedDays = [] ∧ (∀ b, s.currentDayBox = some b → b.menuItems = []) ∧
    s.currentMenuItem = none

theorem completeDayBox1_noItems (s : State1)
    (h : ∀ b, s.currentDayBox = some b → b.menuItems = []) :
    completeDayBox1 s = s.completedDays := by
  rcases s with ⟨cdb, cmi, comp⟩
  rcases cdb with _ | box
  · rfl
  · have hb : box.menuItems = [] := h box rfl
    simp [completeDayBox1, hb]

theorem step1_preserves_noItems (mt : MealType) (s : State1) (e : TagEvent)
    (hs : NoItems1 s) (he : e ≠ TagEvent.itemInfo) :
    NoItems1 (step1 mt s e) := by
  obtain ⟨h1, h2, h3⟩ := hs
  cases e with
  | daybox cls =>
    by_cases hw : isWeekendBox cls = true
    · simp only [step1, hw, if_true]
      exact ⟨h1, h2, h3⟩
    · have hcd : completeDayBox1 s = s.completedDays := completeDayBox1_noItems s h2
      simp only [step1, hw, Bool.false_eq_true, if_false]
      refine ⟨hcd.trans h1, fun b hb => ?_, h3⟩
      simp only [Option.some_inj] at hb
      rw [← hb]
  | dateInfo d m y =>
    obtain ⟨hf1, hf2, hf3⟩ := step1_dateInfo_items_frame mt s d m y
    refine ⟨hf1.trans h1, fun b hb => ?_, hf3.trans h3⟩
    obtain ⟨b0, hb0, hitems⟩ := hf2 b hb
    rw [hitems]
    exact h2 b0 hb0
  | itemInfo => exact absurd rfl he
  | colorIcon style =>
    rcases s with ⟨cdb, cmi, comp⟩
    cases h3
    cases hp : parseStyleColor style.data
    · simp only [step1, hp]
      exact ⟨h1, h2, rfl⟩
    · simp only [step1, hp]
      exact ⟨h1, h2, rfl⟩
  | eventTitle t =>
    rcases s with ⟨cdb, cmi, comp⟩
    cases h3
    by_cases ht : strTrim t = ""
    · simp only [step1, ht, if_pos, ne_eq, not_true_eq_false, if_false]
      exact ⟨h1, h2, rfl⟩
    · simp only [step1, ht, ne_eq, not_false_eq_true, if_true]
      exact ⟨h1, h2, rfl⟩

theorem noItems0_init : NoItems0 State0.init := by
  refine ⟨rfl, ?_, rfl⟩
  intro b hb
  cases hb

theorem noItems1_init : NoItems1 State1.init := by
  refine ⟨rfl, ?_, rfl⟩
  intro b hb
  cases hb

/-- C10 (amended): the two parser revisions are not equivalent in general
(see the counterexample); they do agree — both emitting no `DailyMenu`
records at all — on every event sequence containing no item-info event. -/
theorem parserEquivalence_spec :
    ∀ (evs : List TagEvent) (mt : MealType), (∀ e ∈ evs, e ≠ TagEvent.itemInfo) →
      parseCalendarFragment0 evs mt = [] ∧ parseCalendarFragment1 evs mt = [] := by
  intro evs mt h
  constructor
  · have hInv : NoItems0 (evs.foldl step0 State0.init) :=
      foldl_preserves NoItems0 (fun e => e ≠ TagEvent.itemInfo) step0
        step0_preserves_noItems evs h State0.init noItems0_init
    simp only [parseCalendarFragment0]
    rw [completeDay0_noItems _ hInv.2.1 hInv.2.2, hInv.1]
    rfl
  · have hInv : NoItems1 (evs.foldl (step1 mt) State1.init) :=
      foldl_preserves NoItems1 (fun e => e ≠ TagEvent.itemInfo) (step1 mt)
        (step1_preserves_noItems mt) evs h State1.init noItems1_init
    have hpush : pushItem1 (evs.foldl (step1 mt) State1.init)
        = evs.foldl (step1 mt) State1.init :=
      pushItem1_of_none _ hInv.2.2
    simp only [parseCalendarFragment1]
    rw [hpush]
    rw [completeDayBox1_noItems
      ⟨(List.foldl (step1 mt) State1.init evs).currentDayBox, none,
        (List.foldl (step1 mt) State1.init evs).completedDays⟩
      fun b hb => hInv.2.1 b hb]
    exact hInv.1

/-- Witness for C10's amended theorem at a concrete item-free sequence. -/
theorem parserEquivalence_spec_witness :
    parseCalendarFragment0
        [TagEvent.daybox "fsCalendarDaybox fsStateHasEvents", TagEvent.dateInfo 3 0 2024]
        .lunch = [] ∧
    parseCalendarFragment1
        [TagEvent.daybox "fsCalendarDaybox fsStateHasEvents", TagEvent.dateInfo 3 0 2024]
        .lunch = [] :=
  parserEquivalence_spec
    [TagEvent.daybox "fsCalendarDaybox fsStateHasEvents", TagEvent.dateInfo 3 0 2024] .lunch
    (fun e he => by
      simp only [List.mem_cons, List.not_mem_nil, or_false] at he
      rcases he with rfl | rfl <;> simp)

/-! ### C3: the administrative-announcement filter -/

/-- The name/description pair of an item accumulator was produced by the
title normalizer from some decoded title that passed the administrative
filter. -/
def TitleDerived (terms : List String) (name desc : String) : Prop :=
  ∃ t, isAdminTitle terms t = false ∧ name = (parseMenuItemText t).1 ∧
    desc = (parseMenuItemText t).2

/-- As `TitleDerived`, but with `P1`'s empty-description defaulting applied
at item completion. -/
def TitleDerivedD (terms : List String) (name desc : String) : Prop :=
  ∃ t, isAdminTitle terms t = false ∧ name = (parseMenuItemText t).1 ∧
    desc = (if (parseMenuItemText t).2 = "" then (parseMenuItemText t).1
            else (parseMenuItemText t).2)

/-- The `P0` provenance invariant: every accumulated item's title fields come
from a non-administrative title (or the item is still unnamed). -/
def AdminInv0 (s : State0) : Prop :=
  (∀ box ∈ s.dayBoxes, ∀ it ∈ box.menuItems,
    TitleDerived adminTermsP0 it.name it.description) ∧
  (∀ box, s.currentDayBox = some box → ∀ it ∈ box.menuItems,
    TitleDerived adminTermsP0 it.name it.description) ∧
  (∀ it, s.currentMenuItem = some it →
    it.name = "" ∨ TitleDerived adminTermsP0 it.name it.description)

theorem completeDay0_good (s : State0) (h : AdminInv0 s) :
    ∀ box ∈ completeDay0 s, ∀ it ∈ box.menuItems,
      TitleDerived adminTermsP0 it.name it.description := by
  obtain ⟨h1, h2, h3⟩ := h
  rcases s with ⟨dbs, cdb, cmi⟩
  rcases cdb with _ | box
  · exact h1
  · have hbox := h2 box rfl
    rcases cmi with _ | it
    · intro b hb
      simp only [completeDay0] at hb
      split at hb
      · rcases List.mem_append.mp hb with hb | hb
        · exact h1 b hb
        · rw [List.mem_singleton] at hb
          subst hb
          exact hbox
      · exact h1 b hb
    · rcases h3 it rfl with hn | hgood
      · intro b hb
        simp only [completeDay0, hn, ne_eq, not_true_eq_false, if_false] at hb
        split at hb
        · rcases List.mem_append.mp hb with hb | hb
          · exact h1 b hb
          · rw [List.mem_singleton] at hb
            subst hb
            exact hbox
        · exact h1 b hb
      · by_cases hn : it.name = ""
        · intro b hb
          simp only [completeDay0, hn, ne_eq, not_true_eq_false, if_false] at hb
          split at hb
          · rcases List.mem_append.mp hb with hb | hb
            · exact h1 b hb
            · rw [List.mem_singleton] at hb
              subst hb
              exact hbox
          · exact h1 b hb
        · intro b hb
          simp only [completeDay0, hn, ne_eq, not_false_eq_true, if_true] at hb
          split at hb
          · rcases List.mem_append.mp hb with hb | hb
            · exact h1 b hb
            · rw [List.mem_singleton] at hb
              subst hb
              intro x hx
              rcases List.mem_append.mp hx with hx | hx
              · exact hbox x hx
              · rw [List.mem_singleton] at hx
                subst hx
                exact hgood
          · exact h1 b hb

theorem step0_preserves_admin (s : State0) (e : TagEvent) (h : AdminInv0 s) :
    AdminInv0 (step0 s e) := by
  obtain ⟨h1, h2, h3⟩ := h
  cases e with
  | daybox cls =>
    have hgood := completeDay0_good s ⟨h1, h2, h3⟩
    simp only [step0]
    split
    · refine ⟨hgood, ?_, ?_⟩
      · intro box hb
        cases hb
      · intro it hi
        cases hi
    · split
      · refine ⟨hgood, ?_, ?_⟩
        · intro b hb
          simp only [Option.some_inj] at hb
          subst hb
          intro it hi
          cases hi
        · intro it hi
          cases hi
      · refine ⟨hgood, ?_, ?_⟩
        · intro box hb
          cases hb
        · intro it hi
          cases hi
  | dateInfo d m y =>
    obtain ⟨hf1, hf2, hf3⟩ := step0_dateInfo_items_frame s d m y
    refine ⟨hf1 ▸ h1, fun box hb => ?_, fun it hi => h3 it (hf3 ▸ hi)⟩
    obtain ⟨b0, hb0, hitems⟩ := hf2 box hb
    rw [hitems]
    exact h2 b0 hb0
  | itemInfo =>
    rcases s with ⟨dbs, cdb, cmi⟩
    rcases cdb with _ | box
    · rcases cmi with _ | it
      · exact ⟨h1, h2, h3⟩
      · exact ⟨h1, h2, h3⟩
    · have hbox := h2 box rfl
      rcases cmi with _ | it
      · have heq : step0 ⟨dbs, some box, none⟩ .itemInfo
            = ⟨dbs, some box, some ItemAcc.init⟩ := rfl
        rw [heq]
        refine ⟨h1, ?_, ?_⟩
        · intro b hb
          simp only [Option.some_inj] at hb
          subst hb
          exact hbox
        · intro x hx
          simp only [Option.some_inj] at hx
          subst hx
          left
          rfl
      · by_cases hn : it.name = ""
        · have heq : step0 ⟨dbs, some box, some it⟩ .itemInfo
              = ⟨dbs, some box, some ItemAcc.init⟩ := by
            simp [step0, hn]
          rw [heq]
          refine ⟨h1, ?_, ?_⟩
          · intro b hb
            simp only [Option.some_inj] at hb
            subst hb
            exact hbox
          · intro x hx
            simp only [Option.some_inj] at hx
            subst hx
            left
            rfl
        · have heq : step0 ⟨dbs, some box, some it⟩ .itemInfo
              = ⟨dbs, some { box with menuItems := box.menuItems ++ [it] },
                 some ItemAcc.init⟩ := by
            simp [step0, hn]
          rw [heq]
          refine ⟨h1, ?_, ?_⟩
          · intro b hb
            simp only [Option.some_inj] at hb
            subst hb
            intro y hy
            rcases List.mem_append.mp hy with hy | hy
            · exact hbox y hy
            · rw [List.mem_singleton] at hy
              rcases h3 it rfl with hc | hc
              · exact absurd hc hn
              · rw [hy]
                exact hc
          · intro x hx
            simp only [Option.some_inj] at hx
            subst hx
            left
            rfl
  | colorIcon style =>
    rcases s with ⟨dbs, cdb, cmi⟩
    rcases cmi with _ | it
    · exact ⟨h1, h2, h3⟩
    · cases hp : parseStyleColor style.data with
      | none =>
        have heq : step0 ⟨dbs, cdb, some it⟩ (.colorIcon style) = ⟨dbs, cdb, some it⟩ := by
          simp [step0, hp]
        rw [heq]
        exact ⟨h1, h2, h3⟩
      | some color =>
        have heq : step0 ⟨dbs, cdb, some it⟩ (.colorIcon style)
            = ⟨dbs, cdb, some { it with category := colorCategory color }⟩ := by
          simp [step0, hp]
        rw [heq]
        refine ⟨h1, h2, ?_⟩
        intro x hx
        simp only [Option.some_inj] at hx
        subst hx
        rcases h3 it rfl with hc | hc
        · exact Or.inl hc
        · exact Or.inr hc
  | eventTitle t =>
    rcases s with ⟨dbs, cdb, cmi⟩
    rcases cmi with _ | it
    · exact ⟨h1, h2, h3⟩
    · by_cases ht : strTrim t = ""
      · have heq : step0 ⟨dbs, cdb, some it⟩ (.eventTitle t) = ⟨dbs, cdb, some it⟩ := by
          simp [step0, ht]
        rw [heq]
        exact ⟨h1, h2, h3⟩
      · by_cases ha : isAdminTitle adminTermsP0 (decodeTitle (strTrim t)) = true
        · have heq : step0 ⟨dbs, cdb, some it⟩ (.eventTitle t) = ⟨dbs, cdb, some it⟩ := by
            simp [step0, ht, ha]
          rw [heq]
          exact ⟨h1, h2, h3⟩
        · have heq : step0 ⟨dbs, cdb, some it⟩ (.eventTitle t)
              = ⟨dbs, cdb, some { it with
                  name := (parseMenuItemText (decodeTitle (strTrim t))).1,
                  description := (parseMenuItemText (decodeTitle (strTrim t))).2 }⟩ := by
            simp [step0, ht, ha]
          rw [heq]
          refine ⟨h1, h2, ?_⟩
          intro x hx
          simp only [Option.some_inj] at hx
          subst hx
          right
          exact ⟨decodeTitle (strTrim t), Bool.not_eq_true _ ▸ ha, rfl, rfl⟩

theorem adminInv0_init : AdminInv0 State0.init := by
  refine ⟨?_, ?_, ?_⟩
  · intro box hb
    cases hb
  · intro box hb
    cases hb
  · intro it hi
    cases hi

/-- Every item of every day emitted by `P0` derives from a title that passed
the seven-term administrative filter. -/
theorem parse0_admin (evs : List TagEvent) (mt : MealType) :
    ∀ d ∈ parseCalendarFragment0 evs mt, ∀ it ∈ d.menuItems,
      ∃ t, isAdminTitle adminTermsP0 t = false ∧ it.name = (parseMenuItemText t).1 ∧
        it.description = some (parseMenuItemText t).2 := by
  have hInv : AdminInv0 (evs.foldl step0 State0.init) :=
    foldl_preserves AdminInv0 (fun _ => True) step0
      (fun s a hs _ => step0_preserves_admin s a hs) evs (fun _ _ => trivial)
      State0.init adminInv0_init
  have hgood := completeDay0_good _ hInv
  intro d hd it hit
  simp only [parseCalendarFragment0, List.mem_map, List.mem_filter] at hd
  obtain ⟨box, ⟨hboxmem, -⟩, rfl⟩ := hd
  simp only [List.mem_map] at hit
  obtain ⟨acc, haccmem, rfl⟩ := hit
  obtain ⟨t, hta, htn, htd⟩ := hgood box hboxmem acc haccmem
  exact ⟨t, hta, htn, congrArg some htd⟩

/-- The `P1` provenance invariant (six-term filter; box items carry the
push-time description defaulting). -/
def AdminInv1 (s : State1) : Prop :=
  (∀ d ∈ s.completedDays, ∀ it ∈ d.menuItems,
    ∃ t, isAdminTitle adminTermsP1 t = false ∧ it.name = (parseMenuItemText t).1 ∧
      it.description = some (if (parseMenuItemText t).2 = "" then (parseMenuItemText t).1
        else (parseMenuItemText t).2)) ∧
  (∀ box, s.currentDayBox = some box → ∀ it ∈ box.menuItems,
    TitleDerivedD adminTermsP1 it.name it.description) ∧
  (∀ it, s.currentMenuItem = some it →
    it.name = "" ∨ TitleDerived adminTermsP1 it.name it.description)

theorem completeDayBox1_good (s : State1)
    (h1 : ∀ d ∈ s.completedDays, ∀ it ∈ d.menuItems,
      ∃ t, isAdminTitle adminTermsP1 t = false ∧ it.name = (parseMenuItemText t).1 ∧
        it.description = some (if (parseMenuItemText t).2 = "" then (parseMenuItemText t).1
          else (parseMenuItemText t).2))
    (h2 : ∀ box, s.currentDayBox = some box → ∀ it ∈ box.menuItems,
      TitleDerivedD adminTermsP1 it.name it.description) :
    ∀ d ∈ completeDayBox1 s, ∀ it ∈ d.menuItems,
      ∃ t, isAdminTitle adminTermsP1 t = false ∧ it.name = (parseMenuItemText t).1 ∧
        it.description = some (if (parseMenuItemText t).2 = "" then (parseMenuItemText t).1
          else (parseMenuItemText t).2) := by
  rcases s with ⟨cdb, cmi, comp⟩
  rcases cdb with _ | box
  · exact h1
  · have hbox := h2 box rfl
    intro d hd
    simp only [completeDayBox1] at hd
    split at hd
    · rcases List.mem_append.mp hd with hd | hd
      · exact h1 d hd
      · rw [List.mem_singleton] at hd
        subst hd
        intro it hit
        simp only [List.mem_map] at hit
        obtain ⟨acc, haccmem, rfl⟩ := hit
        obtain ⟨t, hta, htn, htd⟩ := hbox acc haccmem
        exact ⟨t, hta, htn, congrArg some htd⟩
    · exact h1 d hd

theorem step1_preserves_admin (mt : MealType) (s : State1) (e : TagEvent)
    (h : AdminInv1 s) : AdminInv1 (step1 mt s e) := by
  obtain ⟨h1, h2, h3⟩ := h
  cases e with
  | daybox cls =>
    by_cases hw : isWeekendBox cls = true
    · simp only [step1, hw, if_true]
      exact ⟨h1, h2, h3⟩
    · have hgood := completeDayBox1_good s h1 h2
      simp only [step1, hw, Bool.false_eq_true, if_false]
      refine ⟨hgood, ?_, h3⟩
      intro box hb
      simp only [Option.some_inj] at hb
      subst hb
      intro it hit
      cases hit
  | dateInfo d m y =>
    obtain ⟨hf1, hf2, hf3⟩ := step1_dateInfo_items_frame mt s d m y
    refine ⟨hf1 ▸ h1, fun box hb => ?_, fun it hi => h3 it (hf3 ▸ hi)⟩
    obtain ⟨b0, hb0, hitems⟩ := hf2 box hb
    rw [hitems]
    exact h2 b0 hb0
  | itemInfo =>
    rcases s with ⟨cdb, cmi, comp⟩
    have hpush : ∀ box, (pushItem1 ⟨cdb, cmi, comp⟩).currentDayBox = some box →
        ∀ it ∈ box.menuItems, TitleDerivedD adminTermsP1 it.name it.description := by
      rcases cmi with _ | it
      · rcases cdb with _ | box
        · intro b hb
          cases hb
        · intro b hb
          have hb2 : some box = some b := hb
          injection hb2 with hb3
          subst hb3
          exact h2 box rfl
      · rcases cdb with _ | box
        · intro b hb
          cases hb
        · by_cases hn : it.name = ""
          · intro b hb
            simp only [pushItem1, hn, ne_eq, not_true_eq_false, if_false] at hb
            have hb2 : some box = some b := hb
            injection hb2 with hb3
            subst hb3
            exact h2 box rfl
          · intro b hb
            simp only [pushItem1, hn, ne_eq, not_false_eq_true, if_true] at hb
            have hb2 : some { box with menuItems := box.menuItems ++
                [{ it with description := if it.description = "" then it.name
                    else it.description }] } = some b := hb
            injection hb2 with hb3
            subst hb3
            intro x hx
            rcases List.mem_append.mp hx with hx | hx
            · exact h2 box rfl x hx
            · rw [List.mem_singleton] at hx
              rcases h3 it rfl with hc | hc
              · exact absurd hc hn
              · obtain ⟨t, hta, htn, htd⟩ := hc
                rw [hx]
                refine ⟨t, hta, htn, ?_⟩
                simp only [htd, htn]
    obtain ⟨hp1, -, -⟩ := pushItem1_frame ⟨cdb, cmi, comp⟩
    refine ⟨?_, ?_, ?_⟩
    · intro d hd
      have hd2 : d ∈ (pushItem1 ⟨cdb, cmi, comp⟩).completedDays := hd
      rw [hp1] at hd2
      exact h1 d hd2
    · intro box hb
      exact hpush box hb
    · intro it hi
      have hi2 : some ItemAcc.init = some it := hi
      injection hi2 with hi3
      subst hi3
      left
      rfl
  | colorIcon style =>
    rcases s with ⟨cdb, cmi, comp⟩
    cases hp : parseStyleColor style.data with
    | none =>
      have heq : step1 mt ⟨cdb, cmi, comp⟩ (.colorIcon style) = ⟨cdb, cmi, comp⟩ := by
        simp [step1, hp]
      rw [heq]
      exact ⟨h1, h2, h3⟩
    | some color =>
      rcases cmi with _ | it
      · have heq : step1 mt ⟨cdb, none, comp⟩ (.colorIcon style) = ⟨cdb, none, comp⟩ := by
          simp [step1, hp]
        rw [heq]
        exact ⟨h1, h2, h3⟩
      · have heq : step1 mt ⟨cdb, some it, comp⟩ (.colorIcon style)
            = ⟨cdb, some { it with category := colorCategory color }, comp⟩ := by
          simp [step1, hp]
        rw [heq]
        refine ⟨h1, h2, ?_⟩
        intro x hx
        simp only [Option.some_inj] at hx
        subst hx
        rcases h3 it rfl with hc | hc
        · exact Or.inl hc
        · exact Or.inr hc
  | eventTitle t =>
    rcases s with ⟨cdb, cmi, comp⟩
    by_cases ht : strTrim t = ""
    · have heq : step1 mt ⟨cdb, cmi, comp⟩ (.eventTitle t) = ⟨cdb, cmi, comp⟩ := by
        simp [step1, ht]
      rw [heq]
      exact ⟨h1, h2, h3⟩
    · rcases cmi with _ | it
      · have heq : step1 mt ⟨cdb, none, comp⟩ (.eventTitle t) = ⟨cdb, none, comp⟩ := by
          simp [step1, ht]
        rw [heq]
        exact ⟨h1, h2, h3⟩
      · by_cases ha : isAdminTitle adminTermsP1 (decodeTitle (strTrim t)) = true
        · have heq : step1 mt ⟨cdb, some it, comp⟩ (.eventTitle t) = ⟨cdb, none, comp⟩ := by
            simp [step1, ht, ha]
          rw [heq]
          refine ⟨h1, h2, ?_⟩
          intro x hx
          cases hx
        · have heq : step1 mt ⟨cdb, some it, comp⟩ (.eventTitle t)
              = ⟨cdb, some { it with
                  name := (parseMenuItemText (decodeTitle (strTrim t))).1,
                  description := (parseMenuItemText (decodeTitle (strTrim t))).2 }, comp⟩ := by
            simp [step1, ht, ha]
          rw [heq]
          refine ⟨h1, h2, ?_⟩
          intro x hx
          simp only [Option.some_inj] at hx
          subst hx
          right
          exact ⟨decodeTitle (strTrim t), Bool.not_eq_true _ ▸ ha, rfl, rfl⟩

theorem adminInv1_init : AdminInv1 State1.init := by
  refine ⟨?_, ?_, ?_⟩
  · intro d hd
    cases hd
  · intro box hb
    cases hb
  · intro it hi
    cases hi

/-- Every item of every day emitted by `P1` derives from a title that passed
the six-term administrative filter. -/
theorem parse1_admin (evs : List TagEvent) (mt : MealType) :
    ∀ d ∈ parseCalendarFragment1 evs mt, ∀ it ∈ d.menuItems,
      ∃ t, isAdminTitle adminTermsP1 t = false ∧ it.name = (parseMenuItemText t).1 ∧
        it.description = some (if (parseMenuItemText t).2 = "" then (parseMenuItemText t).1
          else (parseMenuItemText t).2) := by
  have hInv : AdminInv1 (evs.foldl (step1 mt) State1.init) :=
    foldl_preserves AdminInv1 (fun _ => True) (step1 mt)
      (fun s a hs _ => step1_preserves_admin mt s a hs) evs (fun _ _ => trivial)
      State1.init adminInv1_init
  obtain ⟨h1, h2, h3⟩ := hInv
  -- the invariant survives the final endMenuItem (a no-op push or a good push)
  have hstep := step1_preserves_admin mt (evs.foldl (step1 mt) State1.init) .itemInfo ⟨h1, h2, h3⟩
  obtain ⟨g1, g2, -⟩ := hstep
  obtain ⟨f1, -, f3⟩ := pushItem1_frame (evs.foldl (step1 mt) State1.init)
  intro d hd it hit
  simp only [parseCalendarFragment1] at hd
  -- the final state is pushItem1 of the fold result with the item cleared
  have hfin := completeDayBox1_good
    ⟨(pushItem1 (evs.foldl (step1 mt) State1.init)).currentDayBox, none,
      (pushItem1 (evs.foldl (step1 mt) State1.init)).completedDays⟩
    ?_ ?_ d hd it hit
  · exact hfin
  · intro d2 hd2
    have hd3 : d2 ∈ (pushItem1 (evs.foldl (step1 mt) State1.init)).completedDays := hd2
    rw [f1] at hd3
    exact h1 d2 hd3
  · intro box hb
    have hb2 : (step1 mt (evs.foldl (step1 mt) State1.init) .itemInfo).currentDayBox
        = some box := hb
    exact g2 box hb2

/-- In `P0`, an administrative title event leaves the state unchanged. -/
theorem step0_eventTitle_admin (s : State0) (t : String) (ht : strTrim t ≠ "")
    (ha : isAdminTitle adminTermsP0 (decodeTitle (strTrim t)) = true) :
    step0 s (.eventTitle t) = s := by
  rcases s with ⟨dbs, cdb, cmi⟩
  rcases cmi with _ | it
  · rfl
  · simp [step0, ht, ha]

/-- Opening a fresh item twice in a row is the same as opening it once, in
`P0` (the freshly opened item is unnamed, so nothing is pushed). -/
theorem step0_itemInfo_idem (s : State0) :
    step0 (step0 s .itemInfo) .itemInfo = step0 s .itemInfo := by
  rcases s with ⟨dbs, cdb, cmi⟩
  rcases cdb with _ | box
  · rcases cmi with _ | it <;> rfl
  · have hinit : ∀ (b : DayBox0), step0 ⟨dbs, some b, some ItemAcc.init⟩ .itemInfo
        = ⟨dbs, some b, some ItemAcc.init⟩ := by
      intro b
      simp [step0, ItemAcc.init]
    rcases cmi with _ | it
    · exact hinit box
    · by_cases hn : it.name = ""
      · have heq : step0 ⟨dbs, some box, some it⟩ .itemInfo
            = ⟨dbs, some box, some ItemAcc.init⟩ := by
          simp [step0, hn]
        rw [heq, hinit]
      · have heq : step0 ⟨dbs, some box, some it⟩ .itemInfo
            = ⟨dbs, some { box with menuItems := box.menuItems ++ [it] },
               some ItemAcc.init⟩ := by
          simp [step0, hn]
        rw [heq, hinit]

/-- In `P1`, reopening after an administrative title restores the state an
item-info event alone would have produced: the admin title nulls the item,
and the next item-info pushes nothing and opens a fresh item again. -/
theorem step1_insertion (mt : MealType) (s : State1) (t : String) (ht : strTrim t ≠ "")
    (ha : isAdminTitle adminTermsP1 (decodeTitle (strTrim t)) = true) :
    step1 mt (step1 mt (step1 mt s .itemInfo) (.eventTitle t)) .itemInfo
      = step1 mt s .itemInfo := by
  have h1 : step1 mt s .itemInfo
      = ⟨(pushItem1 s).currentDayBox, some ItemAcc.init, (pushItem1 s).completedDays⟩ := rfl
  rw [h1]
  have h2 : step1 mt ⟨(pushItem1 s).currentDayBox, some ItemAcc.init,
        (pushItem1 s).completedDays⟩ (.eventTitle t)
      = ⟨(pushItem1 s).currentDayBox, none, (pushItem1 s).completedDays⟩ := by
    simp [step1, ht, ha]
  rw [h2]
  rfl

/-- C3 (counterexample): the `ScraperState` revision (`P1`) does not filter
"quarter ends": the item titled "1st Quarter Ends" appears in its output,
while the inline-state revision (`P0`) filters it and emits nothing. -/
theorem adminFilter_counterexample :
    (parseCalendarFragment1
        [TagEvent.daybox "fsCalendarDaybox fsStateHasEvents", TagEvent.dateInfo 5 0 2024,
         TagEvent.itemInfo, TagEvent.eventTitle "1st Quarter Ends"] .lunch).map
      (fun d => d.menuItems.map MenuItem.name) = [["1st Quarter Ends"]] ∧
    strIncludes (strLower "1st Quarter Ends") "quarter ends" = true ∧
    parseCalendarFragment0
        [TagEvent.daybox "fsCalendarDaybox fsStateHasEvents", TagEvent.dateInfo 5 0 2024,
         TagEvent.itemInfo, TagEvent.eventTitle "1st Quarter Ends"] .lunch = [] := by
  refine ⟨by decide, by decide, by decide⟩

/-- C3 (amended): in the inline-state revision (`P0`) every emitted menu
item's name and description derive, via the title normalizer, from a decoded
title that matches none of the seven administrative substrings; in the
`ScraperState` revision (`P1`) the same holds for its six-term list (which
lacks "quarter ends", see the counterexample).  In both revisions an
administrative item does not alter the accumulation of the item opened by
the next item-info event: inserting `item-info; admin title` before an
item-info event leaves the parser state exactly as the plain item-info
event would. -/
theorem adminFilter_spec :
    (∀ (evs : List TagEvent) (mt : MealType), ∀ d ∈ parseCalendarFragment0 evs mt,
      ∀ it ∈ d.menuItems, ∃ t, isAdminTitle adminTermsP0 t = false ∧
        it.name = (parseMenuItemText t).1 ∧ it.description = some (parseMenuItemText t).2) ∧
    (∀ (evs : List TagEvent) (mt : MealType), ∀ d ∈ parseCalendarFragment1 evs mt,
      ∀ it ∈ d.menuItems, ∃ t, isAdminTitle adminTermsP1 t = false ∧
        it.name = (parseMenuItemText t).1 ∧
        it.description = some (if (parseMenuItemText t).2 = "" then (parseMenuItemText t).1
          else (parseMenuItemText t).2)) ∧
    (∀ (s : State0) (t : String), strTrim t ≠ "" →
      isAdminTitle adminTermsP0 (decodeTitle (strTrim t)) = true →
      step0 (step0 (step0 s .itemInfo) (.eventTitle t)) .itemInfo = step0 s .itemInfo) ∧
    (∀ (mt : MealType) (s : State1) (t : String), strTrim t ≠ "" →
      isAdminTitle adminTermsP1 (decodeTitle (strTrim t)) = true →
      step1 mt (step1 mt (step1 mt s .itemInfo) (.eventTitle t)) .itemInfo
        = step1 mt s .itemInfo) := by
  refine ⟨parse0_admin, parse1_admin, ?_, step1_insertion⟩
  intro s t ht ha
  rw [step0_eventTitle_admin (step0 s .itemInfo) t ht ha, step0_itemInfo_idem]

/-- Witness for C3 at the concrete "Pizza" fragment and a concrete admin
insertion. -/
theorem adminFilter_spec_witness :
    (∃ t, isAdminTitle adminTermsP0 t = false ∧
      (MenuItem.build (ItemAcc.toData ⟨"Pizza", "Pizza", FoodCategory.other, [], []⟩)).name
        = (parseMenuItemText t).1 ∧
      (MenuItem.build (ItemAcc.toData ⟨"Pizza", "Pizza", FoodCategory.other, [], []⟩)).description
        = some (parseMenuItemText t).2) ∧
    step0 (step0 (step0 State0.init .itemInfo) (.eventTitle "No School")) .itemInfo
      = step0 State0.init .itemInfo := by
  constructor
  · exact adminFilter_spec.1
      [TagEvent.daybox "fsCalendarDaybox fsStateHasEvents", TagEvent.dateInfo 3 0 2024,
       TagEvent.itemInfo, TagEvent.eventTitle "Pizza"] .lunch
      ⟨rataDie 2024 1 3, .lunch,
        [MenuItem.build (ItemAcc.toData ⟨"Pizza", "Pizza", FoodCategory.other, [], []⟩)], [], true⟩
      (by decide)
      (MenuItem.build (ItemAcc.toData ⟨"Pizza", "Pizza", FoodCategory.other, [], []⟩))
      (by decide)
  · exact adminFilter_spec.2.2.1 State0.init "No School" (by decide) (by decide)

/-! ### C8/C9: week bucketer theory -/

/-- The Monday-aligned week key of a daily menu. -/
def menuKey (dm : DailyMenu) : Nat := mondayOf dm.date

/-- The final flush of a bucketing accumulator. -/
def flushPart (acc : BucketAcc) : List WeeklyMenu :=
  flushBucket acc.weeklyMenus acc.currentWeekMenus acc.currentWeekStartDate

/-- The bucketing loop run over an already-sorted list. -/
def bucketFold (s : List DailyMenu) : List WeeklyMenu :=
  flushPart (s.foldl bucketStep ⟨[], [], none⟩)

/-- All daily menus of a list of weekly menus, in order. -/
def allMenus (ws : List WeeklyMenu) : List DailyMenu :=
  (ws.map WeeklyMenu.dailyMenus).flatten

theorem group_eq_bucketFold (l : List DailyMenu) :
    groupDailyMenusByWeek l = bucketFold (sortMenus l) := by
  by_cases h : l.isEmpty = true
  · have hl : l = [] := List.isEmpty_iff.mp h
    subst hl
    rfl
  · simp only [groupDailyMenusByWeek, h, Bool.false_eq_true, if_false]
    rfl

theorem flushBucket_out (ws : List WeeklyMenu) (cur : List DailyMenu) (cws : Option Nat) :
    flushBucket ws cur cws = ws ++ flushBucket [] cur cws := by
  cases cws with
  | none => simp [flushBucket]
  | some w =>
    by_cases hcur : cur = []
    · simp [flushBucket, hcur]
    · simp [flushBucket, hcur]

theorem flushBucket_cons (b : WeeklyMenu) (ws : List WeeklyMenu) (cur : List DailyMenu)
    (cws : Option Nat) :
    flushBucket (b :: ws) cur cws = b :: flushBucket ws cur cws := by
  rw [flushBucket_out (b :: ws) cur cws, flushBucket_out ws cur cws]
  simp

theorem foldl_bucketStep_out (l : List DailyMenu) :
    ∀ (ws : List WeeklyMenu) (cur : List DailyMenu) (cws : Option Nat),
    l.foldl bucketStep ⟨ws, cur, cws⟩
      = ⟨ws ++ (l.foldl bucketStep ⟨[], cur, cws⟩).weeklyMenus,
         (l.foldl bucketStep ⟨[], cur, cws⟩).currentWeekMenus,
         (l.foldl bucketStep ⟨[], cur, cws⟩).currentWeekStartDate⟩ := by
  induction l with
  | nil =>
    intro ws cur cws
    simp
  | cons a t ih =>
    intro ws cur cws
    simp only [List.foldl_cons]
    cases cws with
    | none =>
      have e1 : bucketStep ⟨ws, cur, none⟩ a = ⟨ws, [a], some (mondayOf a.date)⟩ := rfl
      have e2 : bucketStep ⟨[], cur, none⟩ a = ⟨[], [a], some (mondayOf a.date)⟩ := rfl
      rw [e1, e2, ih ws [a] (some (mondayOf a.date))]
    | some c =>
      by_cases hsw : isSameWeekM (mondayOf a.date) c = true
      · have e1 : bucketStep ⟨ws, cur, some c⟩ a = ⟨ws, cur ++ [a], some c⟩ := by
          simp [bucketStep, hsw]
        have e2 : bucketStep ⟨[], cur, some c⟩ a = ⟨[], cur ++ [a], some c⟩ := by
          simp [bucketStep, hsw]
        rw [e1, e2, ih ws (cur ++ [a]) (some c)]
      · have e1 : bucketStep ⟨ws, cur, some c⟩ a
            = ⟨flushBucket ws cur (some c), [a], some (mondayOf a.date)⟩ := by
          simp [bucketStep, hsw]
        have e2 : bucketStep ⟨[], cur, some c⟩ a
            = ⟨flushBucket [] cur (some c), [a], some (mondayOf a.date)⟩ := by
          simp [bucketStep, hsw]
        rw [e1, e2, ih (flushBucket ws cur (some c)) [a] (some (mondayOf a.date)),
          ih (flushBucket [] cur (some c)) [a] (some (mondayOf a.date)),
          flushBucket_out ws cur (some c)]
        simp [List.append_assoc]

theorem bucketRun (l : List DailyMenu) :
    ∀ (cur : List DailyMenu) (w : Nat), mondayOf w = w → cur ≠ [] →
    flushPart (l.foldl bucketStep ⟨[], cur, some w⟩)
      = ⟨w, endOfWeekM w, cur ++ l.takeWhile (fun x => mondayOf x.date == w)⟩
          :: bucketFold (l.dropWhile (fun x => mondayOf x.date == w)) := by
  induction l with
  | nil =>
    intro cur w hw hcur
    simp only [List.foldl_nil, List.takeWhile_nil, List.dropWhile_nil, List.append_nil]
    simp [flushPart, flushBucket, hcur, bucketFold]
  | cons a t ih =>
    intro cur w hw hcur
    simp only [List.foldl_cons]
    by_cases hk : mondayOf a.date = w
    · have hsw : isSameWeekM (mondayOf a.date) w = true := by
        simp [isSameWeekM, mondayOf_idem, hw, hk]
      have e1 : bucketStep ⟨[], cur, some w⟩ a = ⟨[], cur ++ [a], some w⟩ := by
        simp [bucketStep, hsw]
      rw [e1, ih (cur ++ [a]) w hw (by simp)]
      have htw : (a :: t).takeWhile (fun x => mondayOf x.date == w)
          = a :: t.takeWhile (fun x => mondayOf x.date == w) := by
        simp [List.takeWhile_cons, hk]
      have hdw : (a :: t).dropWhile (fun x => mondayOf x.date == w)
          = t.dropWhile (fun x => mondayOf x.date == w) := by
        simp [List.dropWhile_cons, hk]
      rw [htw, hdw]
      simp [List.append_assoc]
    · have hsw : isSameWeekM (mondayOf a.date) w = false := by
        simp [isSameWeekM, mondayOf_idem, hw]
        exact hk
      have e1 : bucketStep ⟨[], cur, some w⟩ a
          = ⟨flushBucket [] cur (some w), [a], some (mondayOf a.date)⟩ := by
        simp [bucketStep, hsw]
      have hflush : flushBucket [] cur (some w) = [⟨w, endOfWeekM w, cur⟩] := by
        simp [flushBucket, hcur]
      rw [e1, hflush, foldl_bucketStep_out t [⟨w, endOfWeekM w, cur⟩] [a]
        (some (mondayOf a.date))]
      have htw : (a :: t).takeWhile (fun x => mondayOf x.date == w) = [] := by
        simp [List.takeWhile_cons, hk]
      have hdw : (a :: t).dropWhile (fun x => mondayOf x.date == w) = a :: t := by
        simp [List.dropWhile_cons, hk]
      rw [htw, hdw]
      have hbf : bucketFold (a :: t)
          = flushPart (t.foldl bucketStep ⟨[], [a], some (mondayOf a.date)⟩) := by
        have e0 : bucketStep ⟨[], [], none⟩ a = ⟨[], [a], some (mondayOf a.date)⟩ := rfl
        simp only [bucketFold, List.foldl_cons, e0]
      rw [hbf]
      simp only [flushPart, List.nil_append, List.singleton_append]
      rw [flushBucket_cons]
      simp

/-- One bucket of `bucketFold` at a time: the head's week is closed over the
maximal same-week prefix, and the loop continues on the rest. -/
theorem bucketFold_cons (a : DailyMenu) (t : List DailyMenu) :
    bucketFold (a :: t)
      = ⟨mondayOf a.date, endOfWeekM (mondayOf a.date),
         (a :: t).takeWhile (fun x => mondayOf x.date == mondayOf a.date)⟩
        :: bucketFold ((a :: t).dropWhile (fun x => mondayOf x.date == mondayOf a.date)) := by
  have e0 : bucketStep ⟨[], [], none⟩ a = ⟨[], [a], some (mondayOf a.date)⟩ := rfl
  have h := bucketRun t [a] (mondayOf a.date) (mondayOf_idem a.date) (by simp)
  have htw : (a :: t).takeWhile (fun x => mondayOf x.date == mondayOf a.date)
      = a :: t.takeWhile (fun x => mondayOf x.date == mondayOf a.date) := by
    simp [List.takeWhile_cons]
  have hdw : (a :: t).dropWhile (fun x => mondayOf x.date == mondayOf a.date)
      = t.dropWhile (fun x => mondayOf x.date == mondayOf a.date) := by
    simp [List.dropWhile_cons]
  rw [htw, hdw]
  simp only [bucketFold, List.foldl_cons, e0]
  rw [h]
  simp [bucketFold]

theorem menuKey_mono {a b : DailyMenu} (h : menuDateLe a b) : menuKey a ≤ menuKey b :=
  mondayOf_mono h

/-- Along a date-sorted list whose keys all dominate `w`, the same-week
prefix is exactly the same-week filter. -/
theorem takeWhile_key_eq_filter (s : List DailyMenu) (hs : s.Pairwise menuDateLe) (w : Nat)
    (hmin : ∀ x ∈ s, w ≤ menuKey x) :
    s.takeWhile (fun x => mondayOf x.date == w) = s.filter (fun x => mondayOf x.date == w) ∧
    s.dropWhile (fun x => mondayOf x.date == w)
      = s.filter (fun x => !(mondayOf x.date == w)) := by
  induction s with
  | nil => exact ⟨rfl, rfl⟩
  | cons a t ih =>
    have hrel : ∀ x ∈ t, menuDateLe a x := fun x hx => List.rel_of_pairwise_cons hs hx
    have htail := List.Pairwise.of_cons hs
    by_cases hk : mondayOf a.date = w
    · obtain ⟨ih1, ih2⟩ := ih htail fun x hx => hmin x (List.mem_cons_of_mem a hx)
      constructor
      · rw [List.takeWhile_cons, if_pos (by simp [hk]), List.filter_cons,
          if_pos (by simp [hk]), ih1]
      · rw [List.dropWhile_cons, if_pos (by simp [hk]), List.filter_cons,
          if_neg (by simp [hk]), ih2]
    · have hgt : w < menuKey a := by
        have := hmin a (List.mem_cons_self a t)
        rcases Nat.lt_or_ge w (menuKey a) with h | h
        · exact h
        · exact absurd (Nat.le_antisymm this h) fun he => hk he.symm
      have hall : ∀ x ∈ t, ¬(mondayOf x.date = w) := by
        intro x hx he
        have hkey := menuKey_mono (hrel x hx)
        simp only [menuKey] at hkey hgt
        rw [he] at hkey
        omega
      constructor
      · rw [List.takeWhile_cons, if_neg (by simp [hk]), List.filter_cons,
          if_neg (by simp [hk])]
        symm
        rw [List.filter_eq_nil_iff]
        intro x hx
        simp [hall x hx]
      · rw [List.dropWhile_cons, if_neg (by simp [hk]), List.filter_cons,
          if_pos (by simp [hk])]
        congr 1
        symm
        exact List.filter_eq_self.mpr fun x hx => by simp [hall x hx]

/-- Past the same-week prefix of a sorted list, every key strictly exceeds
`w`. -/
theorem dropWhile_key_gt (s : List DailyMenu) (hs : s.Pairwise menuDateLe) (w : Nat)
    (hmin : ∀ x ∈ s, w ≤ menuKey x) :
    ∀ x ∈ s.dropWhile (fun y => mondayOf y.date == w), w < menuKey x := by
  induction s with
  | nil =>
    intro x hx
    cases hx
  | cons a t ih =>
    have hrel : ∀ x ∈ t, menuDateLe a x := fun x hx => List.rel_of_pairwise_cons hs hx
    have htail := List.Pairwise.of_cons hs
    by_cases hk : mondayOf a.date = w
    · rw [List.dropWhile_cons, if_pos (by simp [hk])]
      exact ih htail fun x hx => hmin x (List.mem_cons_of_mem a hx)
    · rw [List.dropWhile_cons, if_neg (by simp [hk])]
      have hgt : w < menuKey a := by
        have := hmin a (List.mem_cons_self a t)
        rcases Nat.lt_or_ge w (menuKey a) with h | h
        · exact h
        · exact absurd (Nat.le_antisymm this h) fun he => hk he.symm
      intro x hx
      rcases List.mem_cons.mp hx with rfl | hx
      · exact hgt
      · exact Nat.lt_of_lt_of_le hgt (menuKey_mono (hrel x hx))

/-- Structure of `bucketFold` over a sorted input: every bucket is a
Monday-aligned week of width 6 holding exactly its members, bucket starts
strictly increase, and the buckets flatten back to the input. -/
theorem bucketFold_sorted_spec (n : Nat) :
    ∀ (s : List DailyMenu), s.length ≤ n → s.Pairwise menuDateLe →
    (∀ w ∈ bucketFold s, w.endDate = w.startDate + 6 ∧ mondayOf w.startDate = w.startDate ∧
      w.dailyMenus ≠ [] ∧ ∀ dm ∈ w.dailyMenus, mondayOf dm.date = w.startDate) ∧
    ((bucketFold s).map WeeklyMenu.startDate).Pairwise (· < ·) ∧
    allMenus (bucketFold s) = s := by
  induction n with
  | zero =>
    intro s hlen hs
    have hnil : s = [] := List.length_eq_zero.mp (Nat.le_zero.mp hlen)
    subst hnil
    refine ⟨?_, ?_, rfl⟩
    · intro w hw
      cases hw
    · exact List.Pairwise.nil
  | succ n ih =>
    intro s hlen hs
    rcases s with _ | ⟨a, t⟩
    · refine ⟨?_, ?_, rfl⟩
      · intro w hw
        cases hw
      · exact List.Pairwise.nil
    · have hrel : ∀ x ∈ t, menuDateLe a x := fun x hx => List.rel_of_pairwise_cons hs hx
      have hmin : ∀ x ∈ a :: t, mondayOf a.date ≤ menuKey x := by
        intro x hx
        rcases List.mem_cons.mp hx with rfl | hx
        · exact Nat.le_refl _
        · exact menuKey_mono (hrel x hx)
      set ka := mondayOf a.date with hka
      set pred := fun x : DailyMenu => mondayOf x.date == ka with hpred
      obtain ⟨htake, hdrop⟩ := takeWhile_key_eq_filter (a :: t) hs ka hmin
      have hdropsub : List.Sublist ((a :: t).dropWhile pred) (a :: t) :=
        (List.dropWhile_suffix pred).sublist
      have hdroplen : ((a :: t).dropWhile pred).length ≤ n := by
        have h1 : (a :: t).dropWhile pred = t.dropWhile pred := by
          rw [List.dropWhile_cons, if_pos (by simp [hpred])]
        rw [h1]
        have := (List.dropWhile_suffix pred (l := t)).sublist.length_le
        simp only [List.length_cons] at hlen
        omega
      obtain ⟨ihA, ihB, ihC⟩ := ih ((a :: t).dropWhile pred) hdroplen (hs.sublist hdropsub)
      have hgt := dropWhile_key_gt (a :: t) hs ka hmin
      have hcons := bucketFold_cons a t
      have htakemem : ∀ dm ∈ (a :: t).takeWhile pred, mondayOf dm.date = ka := by
        intro dm hdm
        have := List.mem_takeWhile_imp hdm
        simp only [hpred, beq_iff_eq] at this
        exact this
      have htakene : (a :: t).takeWhile pred ≠ [] := by
        rw [List.takeWhile_cons, if_pos (by simp [hpred])]
        simp
      refine ⟨?_, ?_, ?_⟩
      · intro w hw
        rw [hcons] at hw
        rcases List.mem_cons.mp hw with rfl | hw
        · exact ⟨by simp [endOfWeekM, mondayOf_idem], mondayOf_idem a.date, htakene, htakemem⟩
        · exact ihA w hw
      · rw [hcons]
        simp only [List.map_cons]
        refine List.Pairwise.cons ?_ ihB
        intro sd hsd
        simp only [List.mem_map] at hsd
        obtain ⟨w, hw, rfl⟩ := hsd
        obtain ⟨-, -, hne, hmem⟩ := ihA w hw
        rcases List.exists_mem_of_ne_nil w.dailyMenus hne with ⟨dm, hdm⟩
        have hdmdrop : dm ∈ allMenus (bucketFold ((a :: t).dropWhile pred)) := by
          simp only [allMenus, List.mem_flatten]
          exact ⟨w.dailyMenus, List.mem_map_of_mem WeeklyMenu.dailyMenus hw, hdm⟩
        rw [ihC] at hdmdrop
        have := hgt dm hdmdrop
        rw [menuKey] at this
        rw [hmem dm hdm] at this
        exact this
      · rw [hcons]
        simp only [allMenus, List.map_cons, List.flatten_cons]
        rw [show allMenus (bucketFold ((a :: t).dropWhile pred))
            = ((bucketFold ((a :: t).dropWhile pred)).map WeeklyMenu.dailyMenus).flatten from rfl]
          at ihC
        rw [ihC]
        exact List.takeWhile_append_dropWhile pred (a :: t)

/-- Bucketing two sorted permutations of the same menus yields bucket lists
with equal week boundaries and per-bucket membership equal up to
permutation. -/
theorem bucketFold_perm (n : Nat) :
    ∀ (s1 s2 : List DailyMenu), s1.length ≤ n → s1.Pairwise menuDateLe →
    s2.Pairwise menuDateLe → s1.Perm s2 →
    List.Forall₂ (fun w1 w2 => w1.startDate = w2.startDate ∧ w1.endDate = w2.endDate ∧
      w1.dailyMenus.Perm w2.dailyMenus) (bucketFold s1) (bucketFold s2) := by
  induction n with
  | zero =>
    intro s1 s2 hlen h1 h2 hp
    have hnil1 : s1 = [] := List.length_eq_zero.mp (Nat.le_zero.mp hlen)
    subst hnil1
    have hnil2 : s2 = [] := hp.nil_eq.symm
    subst hnil2
    exact List.Forall₂.nil
  | succ n ih =>
    intro s1 s2 hlen h1 h2 hp
    rcases s1 with _ | ⟨a1, t1⟩
    · have hnil2 : s2 = [] := hp.nil_eq.symm
      subst hnil2
      exact List.Forall₂.nil
    · rcases s2 with _ | ⟨a2, t2⟩
      · exact absurd hp.symm.nil_eq (by simp)
      · have hrel1 : ∀ x ∈ t1, menuDateLe a1 x := fun x hx => List.rel_of_pairwise_cons h1 hx
        have hrel2 : ∀ x ∈ t2, menuDateLe a2 x := fun x hx => List.rel_of_pairwise_cons h2 hx
        have hmin1 : ∀ x ∈ a1 :: t1, menuDateLe a1 x := by
          intro x hx
          rcases List.mem_cons.mp hx with rfl | hx
          · exact Nat.le_refl _
          · exact hrel1 x hx
        have hmin2 : ∀ x ∈ a2 :: t2, menuDateLe a2 x := by
          intro x hx
          rcases List.mem_cons.mp hx with rfl | hx
          · exact Nat.le_refl _
          · exact hrel2 x hx
        have hkey : mondayOf a1.date = mondayOf a2.date := by
          have h12 : menuDateLe a1 a2 := hmin1 a2 (hp.mem_iff.mpr (List.mem_cons_self a2 t2))
          have h21 : menuDateLe a2 a1 := hmin2 a1 (hp.mem_iff.mp (List.mem_cons_self a1 t1))
          exact Nat.le_antisymm (mondayOf_mono h12) (mondayOf_mono h21)
        have hmink1 : ∀ x ∈ a1 :: t1, mondayOf a1.date ≤ menuKey x :=
          fun x hx => menuKey_mono (hmin1 x hx)
        have hmink2 : ∀ x ∈ a2 :: t2, mondayOf a1.date ≤ menuKey x := by
          intro x hx
          rw [hkey]
          exact menuKey_mono (hmin2 x hx)
        obtain ⟨htake1, hdrop1⟩ :=
          takeWhile_key_eq_filter (a1 :: t1) h1 (mondayOf a1.date) hmink1
        obtain ⟨htake2, hdrop2⟩ :=
          takeWhile_key_eq_filter (a2 :: t2) h2 (mondayOf a1.date) hmink2
        have hcons1 := bucketFold_cons a1 t1
        have hcons2 := bucketFold_cons a2 t2
        rw [← hkey] at hcons2
        rw [hcons1, hcons2]
        refine List.Forall₂.cons ⟨rfl, rfl, ?_⟩ ?_
        · rw [htake1, htake2]
          exact hp.filter (fun x => mondayOf x.date == mondayOf a1.date)
        · have hlen1 : ((a1 :: t1).dropWhile
              (fun x => mondayOf x.date == mondayOf a1.date)).length ≤ n := by
            have he : (a1 :: t1).dropWhile (fun x => mondayOf x.date == mondayOf a1.date)
                = t1.dropWhile (fun x => mondayOf x.date == mondayOf a1.date) := by
              rw [List.dropWhile_cons, if_pos (by simp)]
            rw [he]
            have := (List.dropWhile_suffix
              (fun x : DailyMenu => mondayOf x.date == mondayOf a1.date)
              (l := t1)).sublist.length_le
            simp only [List.length_cons] at hlen
            omega
          refine ih _ _ hlen1 (h1.sublist (List.dropWhile_suffix _).sublist)
            (h2.sublist (List.dropWhile_suffix _).sublist) ?_
          rw [hdrop1, hdrop2]
          exact hp.filter (fun x => !(mondayOf x.date == mondayOf a1.date))

/-- C8: every `WeeklyMenu` produced by the bucketer starts on the
Monday-aligned week start of its members' dates, ends exactly six days
later, and contains only menus dated within `[startDate, endDate]`; buckets
are emitted in strictly ascending order of start date, one for each week
present in the input and none for absent weeks. -/
theorem groupDailyMenusByWeek_spec :
    ∀ (l : List DailyMenu),
    (∀ w ∈ groupDailyMenusByWeek l,
      w.endDate = w.startDate + 6 ∧ mondayOf w.startDate = w.startDate ∧
      w.dailyMenus ≠ [] ∧
      ∀ dm ∈ w.dailyMenus, mondayOf dm.date = w.startDate ∧ w.startDate ≤ dm.date ∧
        dm.date ≤ w.endDate) ∧
    ((groupDailyMenusByWeek l).map WeeklyMenu.startDate).Pairwise (· < ·) ∧
    (∀ w ∈ groupDailyMenusByWeek l, ∃ dm ∈ l, mondayOf dm.date = w.startDate) ∧
    (∀ dm ∈ l, ∃ w ∈ groupDailyMenusByWeek l, dm ∈ w.dailyMenus) := by
  intro l
  have hsorted : (sortMenus l).Pairwise menuDateLe := List.sorted_insertionSort menuDateLe l
  have hperm : (sortMenus l).Perm l := List.perm_insertionSort menuDateLe l
  obtain ⟨hA, hB, hC⟩ :=
    bucketFold_sorted_spec (sortMenus l).length (sortMenus l) (Nat.le_refl _) hsorted
  rw [group_eq_bucketFold]
  refine ⟨?_, hB, ?_, ?_⟩
  · intro w hw
    obtain ⟨he, hm, hne, hk⟩ := hA w hw
    refine ⟨he, hm, hne, ?_⟩
    intro dm hdm
    have hkey := hk dm hdm
    refine ⟨hkey, ?_, ?_⟩
    · rw [← hkey]
      exact mondayOf_le dm.date
    · rw [he, ← hkey]
      exact le_mondayOf_add_six dm.date
  · intro w hw
    obtain ⟨-, -, hne, hk⟩ := hA w hw
    rcases List.exists_mem_of_ne_nil w.dailyMenus hne with ⟨dm, hdm⟩
    have hmem : dm ∈ allMenus (bucketFold (sortMenus l)) := by
      simp only [allMenus, List.mem_flatten]
      exact ⟨w.dailyMenus, List.mem_map_of_mem WeeklyMenu.dailyMenus hw, hdm⟩
    rw [hC] at hmem
    exact ⟨dm, hperm.mem_iff.mp hmem, hk dm hdm⟩
  · intro dm hdm
    have hmem : dm ∈ allMenus (bucketFold (sortMenus l)) := by
      rw [hC]
      exact hperm.mem_iff.mpr hdm
    simp only [allMenus, List.mem_flatten, List.mem_map] at hmem
    obtain ⟨ms, ⟨w, hw, rfl⟩, hdm2⟩ := hmem
    exact ⟨w, hw, hdm2⟩

/-- A sample daily menu used in the bucketing witnesses. -/
def demoMenuA : DailyMenu :=
  { date := rataDie 2024 1 3, mealType := .lunch, menuItems := [], specialNotes := [],
    isSchoolDay := true }

/-- A second sample daily menu used in the bucketing witnesses. -/
def demoMenuB : DailyMenu :=
  { date := rataDie 2024 1 10, mealType := .breakfast, menuItems := [], specialNotes := [],
    isSchoolDay := true }

/-- Witness for C8 at a concrete one-menu input. -/
theorem groupDailyMenusByWeek_spec_witness :
    ∃ dm ∈ [demoMenuA],
      mondayOf dm.date
        = ({ startDate := rataDie 2024 1 1, endDate := rataDie 2024 1 7,
             dailyMenus := [demoMenuA] } : WeeklyMenu).startDate :=
  (groupDailyMenusByWeek_spec [demoMenuA]).2.2.1
    { startDate := rataDie 2024 1 1, endDate := rataDie 2024 1 7, dailyMenus := [demoMenuA] }
    (by decide)

/-- C9: bucketing is order-independent — permuted inputs yield buckets with
identical `(startDate, endDate)` pairs and per-bucket membership equal as
multisets (hence as sets) — and idempotent: bucketing the flattened output
reproduces the buckets exactly. -/
theorem groupDailyMenusByWeek_perm_idem :
    ∀ (l1 l2 : List DailyMenu), l1.Perm l2 →
    List.Forall₂ (fun w1 w2 => w1.startDate = w2.startDate ∧ w1.endDate = w2.endDate ∧
      w1.dailyMenus.Perm w2.dailyMenus)
      (groupDailyMenusByWeek l1) (groupDailyMenusByWeek l2) ∧
    groupDailyMenusByWeek (allMenus (groupDailyMenusByWeek l1)) = groupDailyMenusByWeek l1 := by
  intro l1 l2 hp
  have hs1 : (sortMenus l1).Pairwise menuDateLe := List.sorted_insertionSort menuDateLe l1
  have hs2 : (sortMenus l2).Pairwise menuDateLe := List.sorted_insertionSort menuDateLe l2
  have hp1 : (sortMenus l1).Perm l1 := List.perm_insertionSort menuDateLe l1
  have hp2 : (sortMenus l2).Perm l2 := List.perm_insertionSort menuDateLe l2
  constructor
  · rw [group_eq_bucketFold, group_eq_bucketFold]
    exact bucketFold_perm (sortMenus l1).length (sortMenus l1) (sortMenus l2) (Nat.le_refl _)
      hs1 hs2 ((hp1.trans hp).trans hp2.symm)
  · have hflat : allMenus (bucketFold (sortMenus l1)) = sortMenus l1 :=
      (bucketFold_sorted_spec (sortMenus l1).length (sortMenus l1) (Nat.le_refl _) hs1).2.2
    calc groupDailyMenusByWeek (allMenus (groupDailyMenusByWeek l1))
        = bucketFold (sortMenus (allMenus (bucketFold (sortMenus l1)))) := by
          rw [group_eq_bucketFold l1, group_eq_bucketFold]
      _ = bucketFold (sortMenus (sortMenus l1)) := by rw [hflat]
      _ = bucketFold (sortMenus l1) := by
          rw [show sortMenus (sortMenus l1) = sortMenus l1 from List.Sorted.insertionSort_eq hs1]
      _ = groupDailyMenusByWeek l1 := (group_eq_bucketFold l1).symm

/-- Witness for C9 at a concrete two-menu permutation. -/
theorem groupDailyMenusByWeek_perm_idem_witness :
    groupDailyMenusByWeek (allMenus (groupDailyMenusByWeek [demoMenuA, demoMenuB]))
      = groupDailyMenusByWeek [demoMenuA, demoMenuB] :=
  (groupDailyMenusByWeek_perm_idem [demoMenuA, demoMenuB] [demoMenuB, demoMenuA]
    (by decide)).2
